import Mathlib

/-!
A shallow embedding of the market-basket analysis core:
`src/transaction_loader.py` (basket construction from CSV),
`src/cooccurrence_graph.py` (weighted undirected co-occurrence graph),
`src/query_service.py` (top-K queries and bounded BFS exploration).

Python dicts are modelled as insertion-ordered association lists
(`Dict α β := List (α × β)`): `dlookup` is key lookup, `dinsert` replaces the
first matching key in place or appends a fresh key at the end, exactly the
observable behaviour of a Python dict.  Python string comparison (by Unicode
code point, lexicographic) is modelled by `strLe` on the underlying character
lists.  Python's stable `sorted` is modelled by a structural insertion sort:
on the inputs produced by the code the sort keys are pairwise distinct, so the
sorted sequence is unique and the choice of algorithm is immaterial.
-/

namespace MarketBasket

/-- Lexicographic comparison of character lists by code point, the order
Python uses to compare strings. -/
def lexLe : List Char → List Char → Bool
  | [], _ => true
  | _ :: _, [] => false
  | x :: xs, y :: ys =>
    if x.toNat < y.toNat then true
    else if y.toNat < x.toNat then false
    else lexLe xs ys

/-- Python `a <= b` on strings. -/
def strLe (a b : String) : Bool := lexLe a.data b.data

/-- Python `a < b` on strings (the negation of `b <= a`). -/
def strLt (a b : String) : Bool := ! strLe b a

theorem lexLe_total : ∀ xs ys : List Char, lexLe xs ys = true ∨ lexLe ys xs = true
  | [], _ => Or.inl rfl
  | _ :: _, [] => Or.inr rfl
  | x :: xs, y :: ys => by
    rcases Nat.lt_trichotomy x.toNat y.toNat with h | h | h
    · left; simp [lexLe, h]
    · have hxy : ¬ x.toNat < y.toNat := by omega
      have hyx : ¬ y.toNat < x.toNat := by omega
      rcases lexLe_total xs ys with ih | ih
      · left; simp [lexLe, hxy, hyx, ih]
      · right; simp [lexLe, hxy, hyx, ih]
    · right; simp [lexLe, h]

theorem lexLe_trans : ∀ xs ys zs : List Char,
    lexLe xs ys = true → lexLe ys zs = true → lexLe xs zs = true
  | [], _, _, _, _ => rfl
  | _ :: _, [], _, h, _ => by simp [lexLe] at h
  | _ :: _, _ :: _, [], _, h => by simp [lexLe] at h
  | x :: xs, y :: ys, z :: zs, h1, h2 => by
    by_cases hxy : x.toNat < y.toNat <;> by_cases hyz : y.toNat < z.toNat
    · have : x.toNat < z.toNat := by omega
      simp [lexLe, this]
    · by_cases hzy : z.toNat < y.toNat
      · simp [lexLe, hyz, hzy] at h2
      · have hyz' : y.toNat = z.toNat := by omega
        have : x.toNat < z.toNat := by omega
        simp [lexLe, this]
    · by_cases hyx : y.toNat < x.toNat
      · simp [lexLe, hxy, hyx] at h1
      · have : x.toNat < z.toNat := by omega
        simp [lexLe, this]
    · by_cases hyx : y.toNat < x.toNat
      · simp [lexLe, hxy, hyx] at h1
      · by_cases hzy : z.toNat < y.toNat
        · simp [lexLe, hyz, hzy] at h2
        · have hxz : ¬ x.toNat < z.toNat := by omega
          have hzx : ¬ z.toNat < x.toNat := by omega
          simp only [lexLe, hxy, hyx, if_false, if_neg] at h1
          simp only [lexLe, hyz, hzy, if_false, if_neg] at h2
          simp only [lexLe, hxz, hzx, if_false, if_neg]
          exact lexLe_trans xs ys zs h1 h2

theorem lexLe_antisymm : ∀ xs ys : List Char,
    lexLe xs ys = true → lexLe ys xs = true → xs = ys
  | [], [], _, _ => rfl
  | [], _ :: _, _, h => by simp [lexLe] at h
  | _ :: _, [], h, _ => by simp [lexLe] at h
  | x :: xs, y :: ys, h1, h2 => by
    by_cases hxy : x.toNat < y.toNat
    · have hyx : ¬ y.toNat < x.toNat := by omega
      simp [lexLe, hyx, hxy] at h2
    · by_cases hyx : y.toNat < x.toNat
      · simp [lexLe, hxy, hyx] at h1
      · have hvx : x = y := by
          apply Char.eq_of_val_eq
          apply UInt32.ext
          simp only [Char.toNat] at hxy hyx
          omega
        simp only [lexLe, hxy, hyx, if_false, if_neg] at h1 h2
        rw [hvx, lexLe_antisymm xs ys h1 h2]

theorem strLe_total (a b : String) : strLe a b = true ∨ strLe b a = true :=
  lexLe_total a.data b.data

theorem strLe_trans {a b c : String} (h1 : strLe a b = true) (h2 : strLe b c = true) :
    strLe a c = true :=
  lexLe_trans a.data b.data c.data h1 h2

theorem strLe_antisymm {a b : String} (h1 : strLe a b = true) (h2 : strLe b a = true) :
    a = b := by
  cases a; cases b
  simp only [strLe] at h1 h2
  exact congrArg String.mk (lexLe_antisymm _ _ h1 h2)

theorem strLe_refl (a : String) : strLe a a = true := by
  rcases strLe_total a a with h | h <;> exact h

theorem strLt_le {a b : String} (h : strLt a b = true) : strLe a b = true := by
  simp only [strLt, Bool.not_eq_true'] at h
  rcases strLe_total a b with h' | h'
  · exact h'
  · rw [h'] at h; cases h

theorem strLt_ne {a b : String} (h : strLt a b = true) : a ≠ b := by
  intro he
  subst he
  simp [strLt, strLe_refl] at h

theorem strLt_of_le_ne {a b : String} (h1 : strLe a b = true) (h2 : a ≠ b) :
    strLt a b = true := by
  simp only [strLt, Bool.not_eq_true']
  by_contra hc
  simp only [Bool.not_eq_false] at hc
  exact h2 (strLe_antisymm h1 hc)

/-! ### Python dicts as insertion-ordered association lists -/

/-- A Python dict: keys in insertion order, at most one entry per key in
any dict actually built by the code. -/
abbrev Dict (α β : Type) := List (α × β)

/-- Python `d.get(k)` / `d[k]`. -/
def dlookup {α β : Type} [DecidableEq α] : Dict α β → α → Option β
  | [], _ => none
  | (k, v) :: rest, x => if k = x then some v else dlookup rest x

/-- Python `d[k] = v`: replaces the value of an existing key in place,
otherwise appends the new key at the end. -/
def dinsert {α β : Type} [DecidableEq α] : Dict α β → α → β → Dict α β
  | [], k, v => [(k, v)]
  | (k', v') :: rest, k, v =>
    if k' = k then (k', v) :: rest else (k', v') :: dinsert rest k v

/-- The keys of a dict, in order. -/
def dkeys {α β : Type} (d : Dict α β) : List α := d.map Prod.fst

theorem dlookup_dinsert_self {α β : Type} [DecidableEq α] (d : Dict α β) (k : α) (v : β) :
    dlookup (dinsert d k v) k = some v := by
  induction d with
  | nil => simp [dinsert, dlookup]
  | cons e rest ih =>
    obtain ⟨a, b⟩ := e
    by_cases h : a = k
    · simp [dinsert, h, dlookup]
    · simp [dinsert, h, dlookup, ih]

theorem dlookup_dinsert_ne {α β : Type} [DecidableEq α] (d : Dict α β) (k k' : α) (v : β)
    (h : k' ≠ k) : dlookup (dinsert d k v) k' = dlookup d k' := by
  have h' : k ≠ k' := fun x => h x.symm
  induction d with
  | nil => simp [dinsert, dlookup, h']
  | cons e rest ih =>
    obtain ⟨a, b⟩ := e
    by_cases he : a = k
    · have he' : a ≠ k' := fun x => h' (he ▸ x)
      simp [dinsert, he, dlookup, he', h']
    · by_cases he' : a = k'
      · simp [dinsert, he, dlookup, he', h, h']
      · simp [dinsert, he, dlookup, he', h, h', ih]

theorem mem_dinsert {α β : Type} [DecidableEq α] (d : Dict α β) (k : α) (v : β) :
    ∀ e ∈ dinsert d k v, e = (k, v) ∨ e ∈ d := by
  induction d with
  | nil => intro e he; simp [dinsert] at he; left; exact he
  | cons f rest ih =>
    intro e he
    obtain ⟨a, b⟩ := f
    by_cases h : a = k
    · simp only [dinsert, h, if_pos] at he
      rcases List.mem_cons.1 he with h1 | h1
      · left; exact h1
      · right; exact List.mem_cons_of_mem _ h1
    · simp only [dinsert, h, if_neg, not_false_iff] at he
      rcases List.mem_cons.1 he with h1 | h1
      · right; rw [h1]; exact List.mem_cons_self _ _
      · rcases ih e h1 with h2 | h2
        · left; exact h2
        · right; exact List.mem_cons_of_mem _ h2

theorem dkeys_dinsert_mem {α β : Type} [DecidableEq α] (d : Dict α β) (k : α) (v : β)
    (h : k ∈ dkeys d) : dkeys (dinsert d k v) = dkeys d := by
  induction d with
  | nil => simp [dkeys] at h
  | cons e rest ih =>
    obtain ⟨a, b⟩ := e
    by_cases he : a = k
    · simp [dinsert, he, dkeys]
    · have hk : k ∈ dkeys rest := by
        simp only [dkeys, List.map_cons, List.mem_cons] at h
        rcases h with h | h
        · exact absurd h.symm he
        · exact h
      have hrec := ih hk
      simp only [dinsert, he, if_neg, not_false_iff, dkeys, List.map_cons]
      simp only [dkeys] at hrec
      rw [hrec]

theorem dkeys_dinsert_new {α β : Type} [DecidableEq α] (d : Dict α β) (k : α) (v : β)
    (h : k ∉ dkeys d) : dkeys (dinsert d k v) = dkeys d ++ [k] := by
  induction d with
  | nil => simp [dinsert, dkeys]
  | cons e rest ih =>
    obtain ⟨a, b⟩ := e
    simp only [dkeys, List.map_cons, List.mem_cons, not_or] at h
    have he : a ≠ k := fun x => h.1 x.symm
    have hrec := ih h.2
    simp only [dinsert, he, if_neg, not_false_iff, dkeys, List.map_cons]
    simp only [dkeys] at hrec
    rw [hrec]
    rfl

theorem dlookup_eq_none {α β : Type} [DecidableEq α] (d : Dict α β) (k : α) :
    dlookup d k = none ↔ k ∉ dkeys d := by
  induction d with
  | nil => simp [dlookup, dkeys]
  | cons e rest ih =>
    obtain ⟨a, b⟩ := e
    by_cases h : a = k
    · simp [dlookup, h, dkeys]
    · simp only [dlookup, h, if_neg, not_false_iff, dkeys, List.map_cons, List.mem_cons,
        not_or]
      rw [ih]
      simp only [dkeys]
      constructor
      · intro hk
        exact ⟨fun x => h x.symm, hk⟩
      · intro hk
        exact hk.2

theorem dkeys_nodup_dinsert {α β : Type} [DecidableEq α] (d : Dict α β) (k : α) (v : β)
    (h : (dkeys d).Nodup) : (dkeys (dinsert d k v)).Nodup := by
  by_cases hm : k ∈ dkeys d
  · rw [dkeys_dinsert_mem d k v hm]; exact h
  · rw [dkeys_dinsert_new d k v hm]
    simp only [List.nodup_append, List.nodup_cons, List.nodup_nil, and_true, true_and]
    refine ⟨h, ?_, ?_⟩
    · simp
    · intro a ha hb
      simp only [List.mem_singleton] at hb
      exact hm (hb ▸ ha)

theorem dlookup_mem {α β : Type} [DecidableEq α] (d : Dict α β) (k : α) (v : β)
    (h : dlookup d k = some v) : (k, v) ∈ d := by
  induction d with
  | nil => simp [dlookup] at h
  | cons e rest ih =>
    obtain ⟨a, b⟩ := e
    by_cases he : a = k
    · simp only [dlookup, he, if_pos] at h
      cases h
      subst he
      exact List.mem_cons_self _ _
    · simp only [dlookup, he, if_neg, not_false_iff] at h
      exact List.mem_cons_of_mem _ (ih h)

theorem mem_dlookup {α β : Type} [DecidableEq α] (d : Dict α β) (k : α) (v : β)
    (hnd : (dkeys d).Nodup) (h : (k, v) ∈ d) : dlookup d k = some v := by
  induction d with
  | nil => simp at h
  | cons e rest ih =>
    obtain ⟨a, b⟩ := e
    simp only [dkeys, List.map_cons, List.nodup_cons] at hnd
    rcases List.mem_cons.1 h with h1 | h1
    · cases h1; simp [dlookup]
    · by_cases he : a = k
      · exfalso
        apply hnd.1
        rw [he]
        exact List.mem_map_of_mem Prod.fst h1
      · simp only [dlookup, he, if_neg, not_false_iff]
        exact ih hnd.2 h1

/-! ### `CooccurrenceGraph` (src/cooccurrence_graph.py)

`self.graph : Dict[str, Dict[str, int]]`, an adjacency list of co-purchase
counts. -/

/-- The adjacency structure `graph[item_a][item_b] = weight`. -/
abbrev Graph := Dict String (Dict String Nat)

/-- `CooccurrenceGraph.get_weight`: 0 when `item_a` is not a key, else
`self.graph[item_a].get(item_b, 0)`. -/
def get_weight (g : Graph) (a b : String) : Nat :=
  match dlookup g a with
  | none => 0
  | some inner => (dlookup inner b).getD 0

theorem get_weight_none {g : Graph} {a : String} (b : String)
    (h : dlookup g a = none) : get_weight g a b = 0 := by
  unfold get_weight
  rw [h]

theorem get_weight_some {g : Graph} {a : String} {inner : Dict String Nat} (b : String)
    (h : dlookup g a = some inner) : get_weight g a b = (dlookup inner b).getD 0 := by
  unfold get_weight
  rw [h]

/-- `CooccurrenceGraph.neighbors`: `self.graph.get(item, {})`. -/
def neighborsOf (g : Graph) (item : String) : Dict String Nat :=
  (dlookup g item).getD []

/-- `if item not in self.graph: self.graph[item] = {}`. -/
def ensureKey (g : Graph) (x : String) : Graph :=
  match dlookup g x with
  | some _ => g
  | none => dinsert g x []

/-- `d[k] = d.get(k, 0) + 1` on an inner adjacency dict. -/
def bumpWeight (d : Dict String Nat) (k : String) : Dict String Nat :=
  dinsert d k ((dlookup d k).getD 0 + 1)

/-- One iteration of the double loop in `update_from_basket`: skip the pair
when the items are equal, otherwise create both keys if needed and increment
the weight in both directions. -/
def updatePair (g : Graph) (a b : String) : Graph :=
  if a = b then g
  else
    let g2 := ensureKey (ensureKey g a) b
    let g3 := dinsert g2 a (bumpWeight (neighborsOf g2 a) b)
    dinsert g3 b (bumpWeight (neighborsOf g3 b) a)

/-- The index pairs `i < j` of the double loop, flattened to the ordered list
of `(basket[i], basket[j])` pairs the loop visits. -/
def pairsInOrder : List String → List (String × String)
  | [] => []
  | x :: xs => (xs.map fun y => (x, y)) ++ pairsInOrder xs

/-- `CooccurrenceGraph.update_from_basket`. -/
def update_from_basket (g : Graph) (basket : List String) : Graph :=
  (pairsInOrder basket).foldl (fun h p => updatePair h p.1 p.2) g

/-- `sorted([item_a, item_b])` as the canonical (lexicographically ordered)
form of an unordered pair. -/
def canonPair (a b : String) : String × String :=
  if strLe a b then (a, b) else (b, a)

/-- The inner loop of `unique_edges` over one adjacency list: the `seen` set
collects canonical pairs, `acc` collects emitted `(a, b, weight)` edges. -/
def edgesFromInner (a : String) :
    List (String × Nat) → List (String × String) → List (String × String × Nat) →
      List (String × String) × List (String × String × Nat)
  | [], seen, acc => (seen, acc)
  | (b, w) :: rest, seen, acc =>
    let p := canonPair a b
    if p ∈ seen then edgesFromInner a rest seen acc
    else edgesFromInner a rest (p :: seen) (acc ++ [(p.1, p.2, w)])

/-- The outer loop of `unique_edges` over `self.graph.items()`. -/
def edgesFromEntries :
    List (String × Dict String Nat) → List (String × String) → List (String × String × Nat) →
      List (String × String) × List (String × String × Nat)
  | [], seen, acc => (seen, acc)
  | (a, inner) :: rest, seen, acc =>
    let r := edgesFromInner a inner seen acc
    edgesFromEntries rest r.1 r.2

/-- `CooccurrenceGraph.unique_edges`. -/
def unique_edges (g : Graph) : List (String × String × Nat) :=
  (edgesFromEntries g [] []).2

/-- A graph built from the empty graph by a sequence of
`update_from_basket` calls. -/
inductive Reachable : Graph → Prop
  | empty : Reachable []
  | step {g : Graph} (basket : List String) : Reachable g →
      Reachable (update_from_basket g basket)

/-- Folding a whole list of baskets into the empty graph. -/
def buildGraph (baskets : List (List String)) : Graph :=
  baskets.foldl update_from_basket []

theorem reachable_buildGraph (baskets : List (List String)) : Reachable (buildGraph baskets) := by
  suffices h : ∀ g, Reachable g → Reachable (baskets.foldl update_from_basket g) from
    h [] Reachable.empty
  induction baskets with
  | nil => intro g hg; exact hg
  | cons b rest ih =>
    intro g hg
    exact ih _ (Reachable.step b hg)

/-! #### The pointwise effect of one pair update on `get_weight` -/

theorem get_weight_via_neighbors (g : Graph) (a y : String) :
    get_weight g a y = (dlookup (neighborsOf g a) y).getD 0 := by
  unfold get_weight neighborsOf
  cases dlookup g a with
  | none => simp [dlookup]
  | some inner => simp

theorem dlookup_ensureKey_of_ne (g : Graph) (x u : String) (h : u ≠ x) :
    dlookup (ensureKey g x) u = dlookup g u := by
  unfold ensureKey
  cases dlookup g x with
  | none => exact dlookup_dinsert_ne g x u [] h
  | some inner => rfl

theorem get_weight_ensureKey (g : Graph) (x u v : String) :
    get_weight (ensureKey g x) u v = get_weight g u v := by
  by_cases h : u = x
  · subst h
    unfold ensureKey
    cases hg : dlookup g u with
    | none =>
      unfold get_weight
      rw [dlookup_dinsert_self, hg]
      simp [dlookup]
    | some inner => rfl
  · unfold get_weight
    rw [dlookup_ensureKey_of_ne g x u h]

theorem dlookup_bumpWeight_self (d : Dict String Nat) (k : String) :
    (dlookup (bumpWeight d k) k).getD 0 = (dlookup d k).getD 0 + 1 := by
  unfold bumpWeight
  rw [dlookup_dinsert_self]
  rfl

theorem dlookup_bumpWeight_ne (d : Dict String Nat) (k y : String) (h : y ≠ k) :
    dlookup (bumpWeight d k) y = dlookup d y :=
  dlookup_dinsert_ne d k y _ h

theorem get_weight_dinsert_self (g : Graph) (k : String) (d : Dict String Nat) (y : String) :
    get_weight (dinsert g k d) k y = (dlookup d y).getD 0 := by
  unfold get_weight
  rw [dlookup_dinsert_self]

theorem get_weight_dinsert_ne (g : Graph) (k x : String) (d : Dict String Nat) (y : String)
    (h : x ≠ k) : get_weight (dinsert g k d) x y = get_weight g x y := by
  unfold get_weight
  rw [dlookup_dinsert_ne _ _ _ _ h]

theorem neighborsOf_dinsert_ne (g : Graph) (k x : String) (d : Dict String Nat)
    (h : x ≠ k) : neighborsOf (dinsert g k d) x = neighborsOf g x := by
  unfold neighborsOf
  rw [dlookup_dinsert_ne _ _ _ _ h]

/-- The weight change of a single pair update, at every coordinate: the pair
`{a, b}` gains 1 in both directions (when `a ≠ b`), everything else is
untouched. -/
theorem get_weight_updatePair (g : Graph) (a b x y : String) :
    get_weight (updatePair g a b) x y =
      get_weight g x y +
        (if a ≠ b ∧ ((x = a ∧ y = b) ∨ (x = b ∧ y = a)) then 1 else 0) := by
  by_cases hab : a = b
  · simp [updatePair, hab]
  · have hg2 : ∀ u v, get_weight (ensureKey (ensureKey g a) b) u v = get_weight g u v := by
      intro u v
      rw [get_weight_ensureKey, get_weight_ensureKey]
    set g2 := ensureKey (ensureKey g a) b with hg2def
    set g3 := dinsert g2 a (bumpWeight (neighborsOf g2 a) b) with hg3def
    have hba : b ≠ a := fun h => hab h.symm
    have hupd : updatePair g a b = dinsert g3 b (bumpWeight (neighborsOf g3 b) a) := by
      simp [updatePair, hab, hg2def, hg3def]
    have hnb3 : neighborsOf g3 b = neighborsOf g2 b := by
      rw [hg3def]
      exact neighborsOf_dinsert_ne _ _ _ _ hba
    rw [hupd]
    by_cases hxb : x = b
    · rw [hxb, get_weight_dinsert_self, hnb3]
      by_cases hya : y = a
      · rw [hya, dlookup_bumpWeight_self, ← get_weight_via_neighbors, hg2]
        rw [if_pos ⟨hab, Or.inr ⟨rfl, rfl⟩⟩]
      · rw [dlookup_bumpWeight_ne _ _ _ hya, ← get_weight_via_neighbors, hg2]
        have hcond : ¬ (a ≠ b ∧ ((b = a ∧ y = b) ∨ (b = b ∧ y = a))) := by
          rintro ⟨-, h | h⟩
          · exact hba h.1
          · exact hya h.2
        rw [if_neg hcond]
        simp
    · rw [get_weight_dinsert_ne _ _ _ _ _ hxb]
      by_cases hxa : x = a
      · rw [hxa, hg3def, get_weight_dinsert_self]
        by_cases hyb : y = b
        · rw [hyb, dlookup_bumpWeight_self, ← get_weight_via_neighbors, hg2]
          rw [if_pos ⟨hab, Or.inl ⟨rfl, rfl⟩⟩]
        · rw [dlookup_bumpWeight_ne _ _ _ hyb, ← get_weight_via_neighbors, hg2]
          have hcond : ¬ (a ≠ b ∧ ((a = a ∧ y = b) ∨ (a = b ∧ y = a))) := by
            rintro ⟨-, h | h⟩
            · exact hyb h.2
            · exact hab h.1
          rw [if_neg hcond]
          simp
      · rw [hg3def, get_weight_dinsert_ne _ _ _ _ _ hxa, hg2]
        have hcond : ¬ (a ≠ b ∧ ((x = a ∧ y = b) ∨ (x = b ∧ y = a))) := by
          rintro ⟨-, h | h⟩
          · exact hxa h.1
          · exact hxb h.1
        rw [if_neg hcond]
        simp

/-! #### Counting pair occurrences over whole baskets -/

/-- Whether the visited index pair `p` hits the unordered pair `{x, y}`
with two distinct entries (the only pairs the double loop acts on). -/
def pairHitB (x y : String) (p : String × String) : Bool :=
  decide (p.1 ≠ p.2 ∧ ((x = p.1 ∧ y = p.2) ∨ (x = p.2 ∧ y = p.1)))

theorem get_weight_foldPairs (ps : List (String × String)) (g : Graph) (x y : String) :
    get_weight (ps.foldl (fun h p => updatePair h p.1 p.2) g) x y
      = get_weight g x y + ps.countP (pairHitB x y) := by
  induction ps generalizing g with
  | nil => simp
  | cons p rest ih =>
    rw [List.foldl_cons, ih, get_weight_updatePair, List.countP_cons]
    by_cases h : p.1 ≠ p.2 ∧ ((x = p.1 ∧ y = p.2) ∨ (x = p.2 ∧ y = p.1))
    · rw [if_pos h]
      have : pairHitB x y p = true := decide_eq_true h
      rw [this]
      simp
      omega
    · rw [if_neg h]
      have : pairHitB x y p = false := decide_eq_false h
      rw [this]
      simp

/-- The net effect of one `update_from_basket` call on every weight. -/
theorem get_weight_update_from_basket (g : Graph) (basket : List String) (x y : String) :
    get_weight (update_from_basket g basket) x y
      = get_weight g x y + (pairsInOrder basket).countP (pairHitB x y) :=
  get_weight_foldPairs (pairsInOrder basket) g x y

theorem get_weight_foldBaskets (bks : List (List String)) (g : Graph) (x y : String) :
    get_weight (bks.foldl update_from_basket g) x y
      = get_weight g x y
        + (bks.map fun bk => (pairsInOrder bk).countP (pairHitB x y)).sum := by
  induction bks generalizing g with
  | nil => simp
  | cons bk rest ih =>
    rw [List.foldl_cons, ih, get_weight_update_from_basket]
    simp [Nat.add_assoc]

theorem mem_pairsInOrder (l : List String) :
    ∀ p ∈ pairsInOrder l, p.1 ∈ l ∧ p.2 ∈ l := by
  induction l with
  | nil => intro p hp; simp [pairsInOrder] at hp
  | cons z xs ih =>
    intro p hp
    simp only [pairsInOrder, List.mem_append, List.mem_map] at hp
    rcases hp with ⟨t, ht, he⟩ | hp
    · rw [← he]
      exact ⟨List.mem_cons_self _ _, List.mem_cons_of_mem _ ht⟩
    · rcases ih p hp with ⟨h1, h2⟩
      exact ⟨List.mem_cons_of_mem _ h1, List.mem_cons_of_mem _ h2⟩

theorem countP_decide_eq_of_nodup (xs : List String) (h : xs.Nodup) (y : String) :
    (xs.countP fun t => decide (t = y)) = if y ∈ xs then 1 else 0 := by
  induction xs with
  | nil => simp
  | cons z rest ih =>
    simp only [List.nodup_cons] at h
    rw [List.countP_cons, ih h.2]
    by_cases hz : z = y
    · rw [hz] at h
      simp [hz, h.1]
    · simp only [List.mem_cons]
      have : (y = z) ↔ False := ⟨fun e => hz e.symm, False.elim⟩
      simp [hz, this]

/-- In a duplicate-free basket, the double loop visits each unordered pair
of distinct members exactly once. -/
theorem countP_pairsInOrder_nodup (l : List String) (h : l.Nodup) (x y : String)
    (hxy : x ≠ y) :
    (pairsInOrder l).countP (pairHitB x y) = if x ∈ l ∧ y ∈ l then 1 else 0 := by
  induction l with
  | nil => simp [pairsInOrder]
  | cons z xs ih =>
    simp only [List.nodup_cons] at h
    have hz := h.1
    have hxs := h.2
    simp only [pairsInOrder, List.countP_append, List.countP_map]
    by_cases hzx : z = x
    · have hmap : ∀ t ∈ xs, ((pairHitB x y ∘ fun t => (z, t)) t = true
          ↔ (decide (t = y)) = true) := by
        intro t ht
        simp only [Function.comp, pairHitB, decide_eq_true_eq]
        constructor
        · rintro ⟨hne, ⟨-, h2⟩ | ⟨h1, h2⟩⟩
          · exact h2.symm
          · exfalso
            rw [hzx] at h2
            exact hxy h2.symm
        · intro hty
          refine ⟨?_, Or.inl ⟨hzx.symm, hty.symm⟩⟩
          rw [hzx, hty]
          exact hxy
      rw [List.countP_congr hmap, countP_decide_eq_of_nodup xs hxs y]
      have hrest : (pairsInOrder xs).countP (pairHitB x y) = 0 := by
        rw [List.countP_eq_zero]
        intro p hp
        rcases mem_pairsInOrder xs p hp with ⟨h1, h2⟩
        simp only [pairHitB, decide_eq_true_eq]
        rintro ⟨-, ⟨hx1, -⟩ | ⟨hx1, -⟩⟩
        · rw [← hzx] at hx1; rw [← hx1] at h1; exact hz h1
        · rw [← hzx] at hx1; rw [← hx1] at h2; exact hz h2
      rw [hrest]
      have hxm : x ∈ z :: xs := by rw [← hzx]; exact List.mem_cons_self _ _
      have hym : (y ∈ z :: xs) ↔ (y ∈ xs) := by
        simp only [List.mem_cons]
        constructor
        · rintro (h1 | h1)
          · exfalso; rw [← hzx] at hxy; exact hxy h1.symm
          · exact h1
        · exact Or.inr
      by_cases hy : y ∈ xs
      · simp [hxm, hym, hy]
      · simp [hxm, hym, hy]
    · by_cases hzy : z = y
      · have hmap : ∀ t ∈ xs, ((pairHitB x y ∘ fun t => (z, t)) t = true
            ↔ (decide (t = x)) = true) := by
          intro t ht
          simp only [Function.comp, pairHitB, decide_eq_true_eq]
          constructor
          · rintro ⟨hne, ⟨h1, h2⟩ | ⟨h1, h2⟩⟩
            · exact absurd (h1.trans hzy) hxy
            · exact h1.symm
          · intro htx
            refine ⟨?_, Or.inr ⟨htx.symm, hzy.symm⟩⟩
            rw [hzy, htx]
            exact fun e => hxy e.symm
        rw [List.countP_congr hmap, countP_decide_eq_of_nodup xs hxs x]
        have hrest : (pairsInOrder xs).countP (pairHitB x y) = 0 := by
          rw [List.countP_eq_zero]
          intro p hp
          rcases mem_pairsInOrder xs p hp with ⟨h1, h2⟩
          simp only [pairHitB, decide_eq_true_eq]
          rintro ⟨-, ⟨-, hy2⟩ | ⟨-, hy2⟩⟩
          · rw [← hzy] at hy2; rw [← hy2] at h2; exact hz h2
          · rw [← hzy] at hy2; rw [← hy2] at h1; exact hz h1
        rw [hrest]
        have hym : y ∈ z :: xs := by rw [← hzy]; exact List.mem_cons_self _ _
        have hxm : (x ∈ z :: xs) ↔ (x ∈ xs) := by
          simp only [List.mem_cons]
          constructor
          · rintro (h1 | h1)
            · exfalso; rw [← hzy] at hxy; exact hxy h1
            · exact h1
          · exact Or.inr
        by_cases hx : x ∈ xs
        · simp [hym, hxm, hx]
        · simp [hym, hxm, hx]
      · have hmap : ∀ t ∈ xs, ((pairHitB x y ∘ fun t => (z, t)) t = true
            ↔ (fun _ : String => false) t = true) := by
          intro t ht
          simp only [Function.comp, pairHitB, decide_eq_true_eq]
          constructor
          · rintro ⟨-, ⟨h1, -⟩ | ⟨-, h2⟩⟩
            · exact absurd h1.symm hzx
            · exact absurd h2.symm hzy
          · intro hf; cases hf
        rw [List.countP_congr hmap, List.countP_false]
        rw [ih hxs]
        have hxm : (x ∈ z :: xs) ↔ (x ∈ xs) := by
          simp only [List.mem_cons]
          exact ⟨fun h1 => h1.elim (fun e => absurd e.symm hzx) id, Or.inr⟩
        have hym : (y ∈ z :: xs) ↔ (y ∈ xs) := by
          simp only [List.mem_cons]
          exact ⟨fun h1 => h1.elim (fun e => absurd e.symm hzy) id, Or.inr⟩
        simp [hxm, hym]

/-! #### Structural invariants of reachable graphs -/

/-- The invariants every graph reachable through `update_from_basket`
satisfies: duplicate-free keys at both levels, symmetric weights, no
self-edges, and only positive stored weights. -/
structure WFGraph (g : Graph) : Prop where
  outerNodup : (dkeys g).Nodup
  innerNodup : ∀ e ∈ g, (dkeys e.2).Nodup
  symm : ∀ a b, get_weight g a b = get_weight g b a
  noSelf : ∀ a, get_weight g a a = 0
  pos : ∀ e ∈ g, ∀ nb ∈ e.2, 1 ≤ nb.2

theorem mem_ensureKey (g : Graph) (x : String) :
    ∀ e ∈ ensureKey g x, e ∈ g ∨ e = (x, ([] : Dict String Nat)) := by
  unfold ensureKey
  cases dlookup g x with
  | some v => intro e he; left; exact he
  | none =>
    intro e he
    rcases mem_dinsert g x [] e he with h | h
    · right; exact h
    · left; exact h

theorem dkeys_nodup_ensureKey (g : Graph) (x : String) (h : (dkeys g).Nodup) :
    (dkeys (ensureKey g x)).Nodup := by
  unfold ensureKey
  cases dlookup g x with
  | some v => exact h
  | none => exact dkeys_nodup_dinsert g x [] h

theorem innerNodup_neighborsOf (g : Graph) (x : String)
    (h : ∀ e ∈ g, (dkeys e.2).Nodup) : (dkeys (neighborsOf g x)).Nodup := by
  unfold neighborsOf
  cases hl : dlookup g x with
  | none => simp [dkeys]
  | some v => exact h (x, v) (dlookup_mem g x v hl)

theorem pos_neighborsOf (g : Graph) (x : String)
    (h : ∀ e ∈ g, ∀ nb ∈ e.2, 1 ≤ nb.2) : ∀ nb ∈ neighborsOf g x, 1 ≤ nb.2 := by
  unfold neighborsOf
  cases hl : dlookup g x with
  | none => intro nb hnb; simp at hnb
  | some v => exact h (x, v) (dlookup_mem g x v hl)

theorem mem_bumpWeight (d : Dict String Nat) (k : String) :
    ∀ nb ∈ bumpWeight d k, nb = (k, (dlookup d k).getD 0 + 1) ∨ nb ∈ d :=
  mem_dinsert d k _

theorem wf_updatePair {g : Graph} (hwf : WFGraph g) (a b : String) :
    WFGraph (updatePair g a b) := by
  by_cases hab : a = b
  · rw [updatePair, if_pos hab]; exact hwf
  · rw [updatePair, if_neg hab]
    have hba : b ≠ a := fun h => hab h.symm
    set g2 := ensureKey (ensureKey g a) b with hg2def
    set g3 := dinsert g2 a (bumpWeight (neighborsOf g2 a) b) with hg3def
    have hg2outer : (dkeys g2).Nodup :=
      dkeys_nodup_ensureKey _ b (dkeys_nodup_ensureKey g a hwf.outerNodup)
    have hg2inner : ∀ e ∈ g2, (dkeys e.2).Nodup := by
      intro e he
      rcases mem_ensureKey _ b e he with h1 | h1
      · rcases mem_ensureKey g a e h1 with h2 | h2
        · exact hwf.innerNodup e h2
        · rw [h2]; simp [dkeys]
      · rw [h1]; simp [dkeys]
    have hg2pos : ∀ e ∈ g2, ∀ nb ∈ e.2, 1 ≤ nb.2 := by
      intro e he
      rcases mem_ensureKey _ b e he with h1 | h1
      · rcases mem_ensureKey g a e h1 with h2 | h2
        · exact hwf.pos e h2
        · rw [h2]; intro nb hnb; simp at hnb
      · rw [h1]; intro nb hnb; simp at hnb
    have hg3outer : (dkeys g3).Nodup := dkeys_nodup_dinsert _ a _ hg2outer
    have hg3inner : ∀ e ∈ g3, (dkeys e.2).Nodup := by
      intro e he
      rcases mem_dinsert _ a _ e he with h1 | h1
      · rw [h1]
        exact dkeys_nodup_dinsert _ b _ (innerNodup_neighborsOf g2 a hg2inner)
      · exact hg2inner e h1
    have hg3pos : ∀ e ∈ g3, ∀ nb ∈ e.2, 1 ≤ nb.2 := by
      intro e he
      rcases mem_dinsert _ a _ e he with h1 | h1
      · rw [h1]
        intro nb hnb
        rcases mem_bumpWeight _ b nb hnb with h2 | h2
        · rw [h2]; omega
        · exact pos_neighborsOf g2 a hg2pos nb h2
      · exact hg2pos e h1
    have hwpoint : ∀ x y, get_weight (updatePair g a b) x y =
        get_weight g x y +
          (if a ≠ b ∧ ((x = a ∧ y = b) ∨ (x = b ∧ y = a)) then 1 else 0) :=
      fun x y => get_weight_updatePair g a b x y
    rw [updatePair, if_neg hab] at hwpoint
    constructor
    · exact dkeys_nodup_dinsert _ b _ hg3outer
    · intro e he
      rcases mem_dinsert _ b _ e he with h1 | h1
      · rw [h1]
        exact dkeys_nodup_dinsert _ a _ (innerNodup_neighborsOf g3 b hg3inner)
      · exact hg3inner e h1
    · intro x y
      rw [hwpoint x y, hwpoint y x, hwf.symm x y]
      by_cases hc : (x = a ∧ y = b) ∨ (x = b ∧ y = a)
      · have hc' : (y = a ∧ x = b) ∨ (y = b ∧ x = a) := by
          rcases hc with ⟨h1, h2⟩ | ⟨h1, h2⟩
          · right; exact ⟨h2, h1⟩
          · left; exact ⟨h2, h1⟩
        rw [if_pos ⟨hab, hc⟩, if_pos ⟨hab, hc'⟩]
      · have hc' : ¬ ((y = a ∧ x = b) ∨ (y = b ∧ x = a)) := by
          rintro (⟨h1, h2⟩ | ⟨h1, h2⟩)
          · exact hc (Or.inr ⟨h2, h1⟩)
          · exact hc (Or.inl ⟨h2, h1⟩)
        rw [if_neg fun hh => hc hh.2, if_neg fun hh => hc' hh.2]
    · intro x
      rw [hwpoint x x, hwf.noSelf x]
      have : ¬ (a ≠ b ∧ ((x = a ∧ x = b) ∨ (x = b ∧ x = a))) := by
        rintro ⟨hne, ⟨h1, h2⟩ | ⟨h1, h2⟩⟩
        · exact hne (h1.symm.trans h2)
        · exact hne (h2.symm.trans h1)
      rw [if_neg this]
    · intro e he
      rcases mem_dinsert _ b _ e he with h1 | h1
      · rw [h1]
        intro nb hnb
        rcases mem_bumpWeight _ a nb hnb with h2 | h2
        · rw [h2]; omega
        · exact pos_neighborsOf g3 b hg3pos nb h2
      · exact hg3pos e h1

theorem wf_update_from_basket {g : Graph} (hwf : WFGraph g) (basket : List String) :
    WFGraph (update_from_basket g basket) := by
  unfold update_from_basket
  generalize pairsInOrder basket = ps
  induction ps generalizing g with
  | nil => exact hwf
  | cons p rest ih => exact ih (wf_updatePair hwf p.1 p.2)

theorem wf_empty : WFGraph ([] : Graph) := by
  constructor
  · simp [dkeys]
  · intro e he; simp at he
  · intro a b; simp [get_weight, dlookup]
  · intro a; simp [get_weight, dlookup]
  · intro e he; simp at he

theorem wf_reachable {g : Graph} (h : Reachable g) : WFGraph g := by
  induction h with
  | empty => exact wf_empty
  | step basket _ ih => exact wf_update_from_basket ih basket

/-! #### Edge enumeration: `unique_edges` -/

/-- The canonical keys `(a, b)` of an edge list. -/
def keysOfEdges (acc : List (String × String × Nat)) : List (String × String) :=
  acc.map fun e => (e.1, e.2.1)

theorem canonPair_cases (a b : String) :
    canonPair a b = (a, b) ∨ canonPair a b = (b, a) := by
  unfold canonPair
  by_cases h : strLe a b = true
  · left; rw [if_pos h]
  · right; rw [if_neg h]

theorem strLe_canonPair (a b : String) :
    strLe (canonPair a b).1 (canonPair a b).2 = true := by
  unfold canonPair
  by_cases h : strLe a b = true
  · rw [if_pos h]; exact h
  · rw [if_neg h]
    rcases strLe_total a b with h1 | h1
    · exact absurd h1 h
    · exact h1

theorem canonPair_eq_of_le {x y : String} (h : strLe x y = true) :
    canonPair x y = (x, y) := by
  unfold canonPair
  rw [if_pos h]

/-- Soundness of the inner `unique_edges` loop: every emitted edge is either
pre-existing or a canonicalised neighbour entry. -/
theorem edgesFromInner_sound (a : String) :
    ∀ (inner : List (String × Nat)) (seen : List (String × String))
      (acc : List (String × String × Nat)),
      ∀ e ∈ (edgesFromInner a inner seen acc).2,
        e ∈ acc ∨ ∃ bw ∈ inner,
          e = ((canonPair a bw.1).1, (canonPair a bw.1).2, bw.2)
  | [], seen, acc => by intro e he; left; exact he
  | (b, w) :: rest, seen, acc => by
    intro e he
    simp only [edgesFromInner] at he
    by_cases hp : canonPair a b ∈ seen
    · rw [if_pos hp] at he
      rcases edgesFromInner_sound a rest seen acc e he with h1 | ⟨bw, hbw, h2⟩
      · left; exact h1
      · right; exact ⟨bw, List.mem_cons_of_mem _ hbw, h2⟩
    · rw [if_neg hp] at he
      rcases edgesFromInner_sound a rest _ _ e he with h1 | ⟨bw, hbw, h2⟩
      · rcases List.mem_append.1 h1 with h2 | h2
        · left; exact h2
        · right
          refine ⟨(b, w), List.mem_cons_self _ _, ?_⟩
          simp only [List.mem_singleton] at h2
          exact h2
      · right; exact ⟨bw, List.mem_cons_of_mem _ hbw, h2⟩

/-- The inner loop only grows the `seen` set. -/
theorem edgesFromInner_seen_mono (a : String) :
    ∀ (inner : List (String × Nat)) (seen : List (String × String))
      (acc : List (String × String × Nat)),
      ∀ p ∈ seen, p ∈ (edgesFromInner a inner seen acc).1
  | [], seen, acc => by intro p hp; exact hp
  | (b, w) :: rest, seen, acc => by
    intro p hp
    simp only [edgesFromInner]
    by_cases hc : canonPair a b ∈ seen
    · rw [if_pos hc]
      exact edgesFromInner_seen_mono a rest seen acc p hp
    · rw [if_neg hc]
      exact edgesFromInner_seen_mono a rest _ _ p (List.mem_cons_of_mem _ hp)

/-- The inner loop only grows the edge accumulator. -/
theorem edgesFromInner_acc_mono (a : String) :
    ∀ (inner : List (String × Nat)) (seen : List (String × String))
      (acc : List (String × String × Nat)),
      ∀ e ∈ acc, e ∈ (edgesFromInner a inner seen acc).2
  | [], seen, acc => by intro e he; exact he
  | (b, w) :: rest, seen, acc => by
    intro e he
    simp only [edgesFromInner]
    by_cases hc : canonPair a b ∈ seen
    · rw [if_pos hc]
      exact edgesFromInner_acc_mono a rest seen acc e he
    · rw [if_neg hc]
      exact edgesFromInner_acc_mono a rest _ _ e
        (List.mem_append.2 (Or.inl he))

/-- Every neighbour pair scanned by the inner loop ends up in `seen`. -/
theorem edgesFromInner_complete (a : String) :
    ∀ (inner : List (String × Nat)) (seen : List (String × String))
      (acc : List (String × String × Nat)),
      ∀ bw ∈ inner, canonPair a bw.1 ∈ (edgesFromInner a inner seen acc).1
  | [], seen, acc => by intro bw hbw; simp at hbw
  | (b, w) :: rest, seen, acc => by
    intro bw hbw
    simp only [edgesFromInner]
    rcases List.mem_cons.1 hbw with h1 | h1
    · by_cases hc : canonPair a b ∈ seen
      · rw [if_pos hc]
        rw [h1]
        exact edgesFromInner_seen_mono a rest seen acc _ hc
      · rw [if_neg hc]
        rw [h1]
        exact edgesFromInner_seen_mono a rest _ _ _ (List.mem_cons_self _ _)
    · by_cases hc : canonPair a b ∈ seen
      · rw [if_pos hc]
        exact edgesFromInner_complete a rest seen acc bw h1
      · rw [if_neg hc]
        exact edgesFromInner_complete a rest _ _ bw h1

/-- Everything in the final `seen` set was there before or is the key of an
emitted edge. -/
theorem edgesFromInner_seen_charact (a : String) :
    ∀ (inner : List (String × Nat)) (seen : List (String × String))
      (acc : List (String × String × Nat)),
      ∀ p ∈ (edgesFromInner a inner seen acc).1,
        p ∈ seen ∨ p ∈ keysOfEdges (edgesFromInner a inner seen acc).2
  | [], seen, acc => by intro p hp; left; exact hp
  | (b, w) :: rest, seen, acc => by
    intro p hp
    simp only [edgesFromInner] at hp ⊢
    by_cases hc : canonPair a b ∈ seen
    · rw [if_pos hc] at hp ⊢
      exact edgesFromInner_seen_charact a rest seen acc p hp
    · rw [if_neg hc] at hp ⊢
      rcases edgesFromInner_seen_charact a rest _ _ p hp with h1 | h1
      · rcases List.mem_cons.1 h1 with h2 | h2
        · right
          have hmem : ((canonPair a b).1, (canonPair a b).2, w) ∈
              (edgesFromInner a rest (canonPair a b :: seen)
                (acc ++ [((canonPair a b).1, (canonPair a b).2, w)])).2 :=
            edgesFromInner_acc_mono a rest _ _ _
              (List.mem_append.2 (Or.inr (List.mem_singleton.2 rfl)))
          rw [h2]
          have : canonPair a b = (((canonPair a b).1, (canonPair a b).2, w).1,
              ((canonPair a b).1, (canonPair a b).2, w).2.1) := rfl
          rw [this]
          exact List.mem_map_of_mem _ hmem
        · left; exact h2
      · right; exact h1

/-- The inner loop preserves duplicate-freeness of the emitted canonical
keys, provided every existing key is already in `seen`. -/
theorem edgesFromInner_nodup (a : String) :
    ∀ (inner : List (String × Nat)) (seen : List (String × String))
      (acc : List (String × String × Nat)),
      (keysOfEdges acc).Nodup → (∀ q ∈ keysOfEdges acc, q ∈ seen) →
      ((keysOfEdges (edgesFromInner a inner seen acc).2).Nodup ∧
        ∀ q ∈ keysOfEdges (edgesFromInner a inner seen acc).2,
          q ∈ (edgesFromInner a inner seen acc).1)
  | [], seen, acc => by
    intro h1 h2
    exact ⟨h1, fun q hq => h2 q hq⟩
  | (b, w) :: rest, seen, acc => by
    intro h1 h2
    simp only [edgesFromInner]
    by_cases hc : canonPair a b ∈ seen
    · rw [if_pos hc]
      exact edgesFromInner_nodup a rest seen acc h1 h2
    · rw [if_neg hc]
      apply edgesFromInner_nodup a rest
      · have : keysOfEdges (acc ++ [((canonPair a b).1, (canonPair a b).2, w)]) =
            keysOfEdges acc ++ [canonPair a b] := by
          simp [keysOfEdges]
        rw [this]
        simp only [List.nodup_append, List.nodup_cons, List.nodup_nil, and_true, true_and]
        refine ⟨h1, by simp, ?_⟩
        intro q hq hq2
        simp only [List.mem_singleton] at hq2
        rw [hq2] at hq
        exact hc (h2 _ hq)
      · intro q hq
        have : keysOfEdges (acc ++ [((canonPair a b).1, (canonPair a b).2, w)]) =
            keysOfEdges acc ++ [canonPair a b] := by
          simp [keysOfEdges]
        rw [this] at hq
        rcases List.mem_append.1 hq with h3 | h3
        · exact List.mem_cons_of_mem _ (h2 q h3)
        · simp only [List.mem_singleton] at h3
          rw [h3]
          exact List.mem_cons_self _ _

theorem edgesFromEntries_sound :
    ∀ (l : List (String × Dict String Nat)) (seen : List (String × String))
      (acc : List (String × String × Nat)),
      ∀ e ∈ (edgesFromEntries l seen acc).2,
        e ∈ acc ∨ ∃ en ∈ l, ∃ bw ∈ en.2,
          e = ((canonPair en.1 bw.1).1, (canonPair en.1 bw.1).2, bw.2)
  | [], seen, acc => by intro e he; left; exact he
  | (a, inner) :: rest, seen, acc => by
    intro e he
    simp only [edgesFromEntries] at he
    rcases edgesFromEntries_sound rest _ _ e he with h1 | ⟨en, hen, bw, hbw, h2⟩
    · rcases edgesFromInner_sound a inner seen acc e h1 with h2 | ⟨bw, hbw, h3⟩
      · left; exact h2
      · right
        exact ⟨(a, inner), List.mem_cons_self _ _, bw, hbw, h3⟩
    · right
      exact ⟨en, List.mem_cons_of_mem _ hen, bw, hbw, h2⟩

theorem edgesFromEntries_seen_mono :
    ∀ (l : List (String × Dict String Nat)) (seen : List (String × String))
      (acc : List (String × String × Nat)),
      ∀ p ∈ seen, p ∈ (edgesFromEntries l seen acc).1
  | [], seen, acc => by intro p hp; exact hp
  | (a, inner) :: rest, seen, acc => by
    intro p hp
    simp only [edgesFromEntries]
    exact edgesFromEntries_seen_mono rest _ _ p
      (edgesFromInner_seen_mono a inner seen acc p hp)

theorem edgesFromEntries_complete :
    ∀ (l : List (String × Dict String Nat)) (seen : List (String × String))
      (acc : List (String × String × Nat)),
      ∀ en ∈ l, ∀ bw ∈ en.2, canonPair en.1 bw.1 ∈ (edgesFromEntries l seen acc).1
  | [], seen, acc => by intro en hen; simp at hen
  | (a, inner) :: rest, seen, acc => by
    intro en hen bw hbw
    simp only [edgesFromEntries]
    rcases List.mem_cons.1 hen with h1 | h1
    · apply edgesFromEntries_seen_mono rest
      rw [h1]
      apply edgesFromInner_complete a inner seen acc bw
      have : en.2 = inner := by rw [h1]
      rw [← this]
      exact hbw
    · exact edgesFromEntries_complete rest _ _ en h1 bw hbw

theorem edgesFromEntries_acc_mono :
    ∀ (l : List (String × Dict String Nat)) (seen : List (String × String))
      (acc : List (String × String × Nat)),
      ∀ e ∈ acc, e ∈ (edgesFromEntries l seen acc).2
  | [], seen, acc => by intro e he; exact he
  | (a, inner) :: rest, seen, acc => by
    intro e he
    simp only [edgesFromEntries]
    exact edgesFromEntries_acc_mono rest _ _ e
      (edgesFromInner_acc_mono a inner seen acc e he)

theorem edgesFromEntries_seen_charact :
    ∀ (l : List (String × Dict String Nat)) (seen : List (String × String))
      (acc : List (String × String × Nat)),
      ∀ p ∈ (edgesFromEntries l seen acc).1,
        p ∈ seen ∨ p ∈ keysOfEdges (edgesFromEntries l seen acc).2
  | [], seen, acc => by intro p hp; left; exact hp
  | (a, inner) :: rest, seen, acc => by
    intro p hp
    simp only [edgesFromEntries] at hp ⊢
    rcases edgesFromEntries_seen_charact rest _ _ p hp with h1 | h1
    · rcases edgesFromInner_seen_charact a inner seen acc p h1 with h2 | h2
      · left; exact h2
      · right
        simp only [keysOfEdges] at h2 ⊢
        rcases List.mem_map.1 h2 with ⟨e, he, hk⟩
        exact List.mem_map.2 ⟨e, edgesFromEntries_acc_mono rest _ _ e he, hk⟩
    · right; exact h1

theorem edgesFromEntries_nodup :
    ∀ (l : List (String × Dict String Nat)) (seen : List (String × String))
      (acc : List (String × String × Nat)),
      (keysOfEdges acc).Nodup → (∀ q ∈ keysOfEdges acc, q ∈ seen) →
      ((keysOfEdges (edgesFromEntries l seen acc).2).Nodup ∧
        ∀ q ∈ keysOfEdges (edgesFromEntries l seen acc).2,
          q ∈ (edgesFromEntries l seen acc).1)
  | [], seen, acc => by
    intro h1 h2
    exact ⟨h1, fun q hq => h2 q hq⟩
  | (a, inner) :: rest, seen, acc => by
    intro h1 h2
    simp only [edgesFromEntries]
    rcases edgesFromInner_nodup a inner seen acc h1 h2 with ⟨h3, h4⟩
    exact edgesFromEntries_nodup rest _ _ h3 h4

theorem get_weight_of_mem {g : Graph} (hwf : WFGraph g) {a : String}
    {inner : Dict String Nat} {b : String} {w : Nat}
    (ha : (a, inner) ∈ g) (hb : (b, w) ∈ inner) : get_weight g a b = w := by
  have h1 : dlookup g a = some inner := mem_dlookup g a inner hwf.outerNodup ha
  have h2 : dlookup inner b = some w :=
    mem_dlookup inner b w (hwf.innerNodup (a, inner) ha) hb
  rw [get_weight_some b h1, h2]
  rfl

/-- Every edge `unique_edges` returns is canonical (`a < b`), carries the
stored weight of its pair, and that weight is positive. -/
theorem unique_edges_sound {g : Graph} (hwf : WFGraph g) :
    ∀ e ∈ unique_edges g,
      strLt e.1 e.2.1 = true ∧ e.2.2 = get_weight g e.1 e.2.1 ∧ 1 ≤ e.2.2 := by
  intro e he
  rcases edgesFromEntries_sound g [] [] e he with h1 | ⟨en, hen, bw, hbw, h2⟩
  · simp at h1
  · obtain ⟨a, inner⟩ := en
    obtain ⟨b, w⟩ := bw
    simp only at hbw h2
    have hw : get_weight g a b = w := get_weight_of_mem hwf hen hbw
    have hpos : 1 ≤ w := hwf.pos (a, inner) hen (b, w) hbw
    have hab : a ≠ b := by
      intro hcontra
      rw [hcontra] at hw
      rw [hwf.noSelf b] at hw
      omega
    rcases canonPair_cases a b with hc | hc
    · rw [h2, hc]
      refine ⟨strLt_of_le_ne ?_ hab, hw.symm, hpos⟩
      have := strLe_canonPair a b
      rw [hc] at this
      exact this
    · rw [h2, hc]
      refine ⟨strLt_of_le_ne ?_ (fun hcontra => hab hcontra.symm), ?_, hpos⟩
      · have := strLe_canonPair a b
        rw [hc] at this
        exact this
      · rw [hwf.symm b a, hw]

/-- `unique_edges` never lists the same unordered pair twice. -/
theorem unique_edges_keys_nodup (g : Graph) :
    (keysOfEdges (unique_edges g)).Nodup :=
  (edgesFromEntries_nodup g [] [] (by simp [keysOfEdges]) (by simp [keysOfEdges])).1

/-- Every canonically ordered pair with positive stored weight is listed. -/
theorem unique_edges_complete {g : Graph} (hwf : WFGraph g) (x y : String)
    (hlt : strLt x y = true) (hpos : 1 ≤ get_weight g x y) :
    (x, y, get_weight g x y) ∈ unique_edges g := by
  obtain ⟨inner, hin⟩ : ∃ inner, dlookup g x = some inner := by
    cases hgl : dlookup g x with
    | none => rw [get_weight_none y hgl] at hpos; omega
    | some v => exact ⟨v, rfl⟩
  obtain ⟨w, hwl⟩ : ∃ w, dlookup inner y = some w := by
    rw [get_weight_some y hin] at hpos
    cases hil : dlookup inner y with
    | none => rw [hil] at hpos; simp at hpos
    | some v => exact ⟨v, rfl⟩
  have hxin : (x, inner) ∈ g := dlookup_mem g x inner hin
  have hyin : (y, w) ∈ inner := dlookup_mem inner y w hwl
  have hseen : canonPair x y ∈ (edgesFromEntries g [] []).1 :=
    edgesFromEntries_complete g [] [] (x, inner) hxin (y, w) hyin
  have hcxy : canonPair x y = (x, y) := canonPair_eq_of_le (strLt_le hlt)
  rcases edgesFromEntries_seen_charact g [] [] _ hseen with h1 | h1
  · simp at h1
  · rw [hcxy] at h1
    rcases List.mem_map.1 h1 with ⟨e, he, hk⟩
    rcases unique_edges_sound hwf e he with ⟨-, hweq, -⟩
    have hx : e.1 = x := congrArg Prod.fst hk
    have hy : e.2.1 = y := congrArg Prod.snd hk
    have : e = (x, y, get_weight g x y) := by
      obtain ⟨e1, e2, e3⟩ := e
      simp only at hx hy hweq
      rw [hx, hy] at hweq ⊢
      rw [hweq]
    rw [← this]
    exact he

/-! ### Sorting (Python `sorted` with a key function)

Python's `sorted` is stable; every sort key used by the query service is
injective on its input (neighbour names, canonical pairs), so the sorted
sequence is unique and a plain insertion sort models it exactly. -/

def insertSorted {α : Type} (le : α → α → Bool) (x : α) : List α → List α
  | [] => [x]
  | y :: ys => if le x y then x :: y :: ys else y :: insertSorted le x ys

def sortBy {α : Type} (le : α → α → Bool) : List α → List α
  | [] => []
  | x :: xs => insertSorted le x (sortBy le xs)

theorem insertSorted_perm {α : Type} (le : α → α → Bool) (x : α) :
    ∀ l : List α, List.Perm (insertSorted le x l) (x :: l)
  | [] => List.Perm.refl _
  | y :: ys => by
    simp only [insertSorted]
    by_cases hc : le x y = true
    · rw [if_pos hc]
    · rw [if_neg hc]
      exact List.Perm.trans (List.Perm.cons y (insertSorted_perm le x ys))
        (List.Perm.swap x y ys)

theorem sortBy_perm {α : Type} (le : α → α → Bool) :
    ∀ l : List α, List.Perm (sortBy le l) l
  | [] => List.Perm.refl _
  | x :: xs => by
    simp only [sortBy]
    exact List.Perm.trans (insertSorted_perm le x _)
      (List.Perm.cons x (sortBy_perm le xs))

theorem insertSorted_sorted {α : Type} (le : α → α → Bool)
    (htrans : ∀ a b c, le a b = true → le b c = true → le a c = true)
    (htotal : ∀ a b, le a b = true ∨ le b a = true) (x : α) :
    ∀ l : List α, l.Pairwise (fun a b => le a b = true) →
      (insertSorted le x l).Pairwise (fun a b => le a b = true)
  | [], _ => by simp [insertSorted]
  | y :: ys, h => by
    simp only [insertSorted]
    rcases List.pairwise_cons.1 h with ⟨hy, hys⟩
    by_cases hc : le x y = true
    · rw [if_pos hc]
      refine List.pairwise_cons.2 ⟨?_, h⟩
      intro b hb
      rcases List.mem_cons.1 hb with h1 | h1
      · rw [h1]; exact hc
      · exact htrans x y b hc (hy b h1)
    · rw [if_neg hc]
      refine List.pairwise_cons.2 ⟨?_, insertSorted_sorted le htrans htotal x ys hys⟩
      intro b hb
      have hmem : b = x ∨ b ∈ ys := by
        have := (List.Perm.mem_iff (insertSorted_perm le x ys)).1 hb
        simpa using this
      rcases hmem with h1 | h1
      · rw [h1]
        rcases htotal x y with h2 | h2
        · exact absurd h2 hc
        · exact h2
      · exact hy b h1

theorem sortBy_sorted {α : Type} (le : α → α → Bool)
    (htrans : ∀ a b c, le a b = true → le b c = true → le a c = true)
    (htotal : ∀ a b, le a b = true ∨ le b a = true) :
    ∀ l : List α, (sortBy le l).Pairwise (fun a b => le a b = true)
  | [] => by simp [sortBy]
  | x :: xs => by
    simp only [sortBy]
    exact insertSorted_sorted le htrans htotal x _ (sortBy_sorted le htrans htotal xs)

/-! ### `QueryService` (src/query_service.py) -/

/-- `QueryService.pair_frequency`: delegates to `get_weight`. -/
def pair_frequency (g : Graph) (a b : String) : Nat := get_weight g a b

/-- `QueryService.often_copurchased`. -/
def often_copurchased (g : Graph) (a b : String) (threshold : Nat) : Bool :=
  threshold ≤ pair_frequency g a b

/-- The sort key `lambda x: (-x[1], x[0])` of `top_with_item`, as a
comparison. -/
def neighborLE (x y : String × Nat) : Bool :=
  if y.2 < x.2 then true
  else if x.2 < y.2 then false
  else strLe x.1 y.1

/-- `QueryService.top_with_item`. -/
def top_with_item (g : Graph) (item : String) (k : Nat) : List (String × Nat) :=
  let ns := neighborsOf g item
  if ns.isEmpty then []
  else (sortBy neighborLE ns).take k

/-- The sort key `lambda x: (-x[2], x[0], x[1])` of `top_bundles`, as a
comparison. -/
def bundleLE (x y : String × String × Nat) : Bool :=
  if y.2.2 < x.2.2 then true
  else if x.2.2 < y.2.2 then false
  else if strLt x.1 y.1 then true
  else if strLt y.1 x.1 then false
  else strLe x.2.1 y.2.1

/-- `QueryService.top_bundles`. -/
def top_bundles (g : Graph) (k : Nat) : List (String × String × Nat) :=
  let es := unique_edges g
  if es.isEmpty then []
  else (sortBy bundleLE es).take k

theorem strLt_false_le {a b : String} (h : strLt a b = false) : strLe b a = true := by
  simp only [strLt, Bool.not_eq_false'] at h
  exact h

theorem strEq_of_not_lt {a b : String} (h1 : strLt a b = false) (h2 : strLt b a = false) :
    a = b :=
  strLe_antisymm (strLt_false_le h2) (strLt_false_le h1)

theorem strLt_trans {a b c : String} (h1 : strLt a b = true) (h2 : strLt b c = true) :
    strLt a c = true := by
  simp only [strLt, Bool.not_eq_true'] at h1 h2 ⊢
  by_contra hc
  simp only [Bool.not_eq_false] at hc
  have hbc : strLe b c = true := by
    rcases strLe_total b c with h | h
    · exact h
    · rw [h] at h2; cases h2
  have hba : strLe b a = true := strLe_trans hbc hc
  rw [hba] at h1
  cases h1

theorem strLt_irrefl (a : String) : strLt a a = false := by
  simp [strLt, strLe_refl]

theorem neighborLE_elim {x y : String × Nat} (h : neighborLE x y = true) :
    y.2 < x.2 ∨ (x.2 = y.2 ∧ strLe x.1 y.1 = true) := by
  unfold neighborLE at h
  by_cases h1 : y.2 < x.2
  · left; exact h1
  · rw [if_neg h1] at h
    by_cases h2 : x.2 < y.2
    · rw [if_pos h2] at h; cases h
    · rw [if_neg h2] at h
      right
      exact ⟨by omega, h⟩

theorem neighborLE_intro {x y : String × Nat}
    (h : y.2 < x.2 ∨ (x.2 = y.2 ∧ strLe x.1 y.1 = true)) : neighborLE x y = true := by
  unfold neighborLE
  rcases h with h | ⟨h1, h2⟩
  · rw [if_pos h]
  · rw [if_neg (by omega : ¬ y.2 < x.2), if_neg (by omega : ¬ x.2 < y.2)]
    exact h2

theorem neighborLE_total : ∀ x y : String × Nat,
    neighborLE x y = true ∨ neighborLE y x = true := by
  intro x y
  rcases Nat.lt_trichotomy x.2 y.2 with h | h | h
  · right; exact neighborLE_intro (Or.inl h)
  · rcases strLe_total x.1 y.1 with hs | hs
    · left; exact neighborLE_intro (Or.inr ⟨h, hs⟩)
    · right; exact neighborLE_intro (Or.inr ⟨h.symm, hs⟩)
  · left; exact neighborLE_intro (Or.inl h)

theorem neighborLE_trans : ∀ x y z : String × Nat,
    neighborLE x y = true → neighborLE y z = true → neighborLE x z = true := by
  intro x y z hxy hyz
  rcases neighborLE_elim hxy with h1 | ⟨h1, hs1⟩ <;>
    rcases neighborLE_elim hyz with h2 | ⟨h2, hs2⟩
  · exact neighborLE_intro (Or.inl (by omega))
  · exact neighborLE_intro (Or.inl (by omega))
  · exact neighborLE_intro (Or.inl (by omega))
  · exact neighborLE_intro (Or.inr ⟨by omega, strLe_trans hs1 hs2⟩)

theorem bundleLE_elim {x y : String × String × Nat} (h : bundleLE x y = true) :
    y.2.2 < x.2.2 ∨ (x.2.2 = y.2.2 ∧
      (strLt x.1 y.1 = true ∨ (x.1 = y.1 ∧ strLe x.2.1 y.2.1 = true))) := by
  unfold bundleLE at h
  by_cases h1 : y.2.2 < x.2.2
  · left; exact h1
  · rw [if_neg h1] at h
    by_cases h2 : x.2.2 < y.2.2
    · rw [if_pos h2] at h; cases h
    · rw [if_neg h2] at h
      right
      refine ⟨by omega, ?_⟩
      by_cases h3 : strLt x.1 y.1 = true
      · left; exact h3
      · rw [if_neg h3] at h
        by_cases h4 : strLt y.1 x.1 = true
        · rw [if_pos h4] at h; cases h
        · rw [if_neg h4] at h
          right
          exact ⟨strEq_of_not_lt (Bool.not_eq_true _ ▸ h3) (Bool.not_eq_true _ ▸ h4), h⟩

theorem bundleLE_intro {x y : String × String × Nat}
    (h : y.2.2 < x.2.2 ∨ (x.2.2 = y.2.2 ∧
      (strLt x.1 y.1 = true ∨ (x.1 = y.1 ∧ strLe x.2.1 y.2.1 = true)))) :
    bundleLE x y = true := by
  unfold bundleLE
  rcases h with h | ⟨h1, h2⟩
  · rw [if_pos h]
  · rw [if_neg (by omega : ¬ y.2.2 < x.2.2), if_neg (by omega : ¬ x.2.2 < y.2.2)]
    rcases h2 with h2 | ⟨h2, h3⟩
    · rw [if_pos h2]
    · have hlt : strLt x.1 y.1 = false := by rw [h2]; exact strLt_irrefl _
      have hgt : strLt y.1 x.1 = false := by rw [h2]; exact strLt_irrefl _
      rw [if_neg (by rw [hlt]; exact Bool.false_ne_true),
        if_neg (by rw [hgt]; exact Bool.false_ne_true)]
      exact h3

theorem bundleLE_total : ∀ x y : String × String × Nat,
    bundleLE x y = true ∨ bundleLE y x = true := by
  intro x y
  rcases Nat.lt_trichotomy x.2.2 y.2.2 with h | h | h
  · right; exact bundleLE_intro (Or.inl h)
  · by_cases h3 : strLt x.1 y.1 = true
    · left; exact bundleLE_intro (Or.inr ⟨h, Or.inl h3⟩)
    · by_cases h4 : strLt y.1 x.1 = true
      · right; exact bundleLE_intro (Or.inr ⟨h.symm, Or.inl h4⟩)
      · have he : x.1 = y.1 :=
          strEq_of_not_lt (Bool.not_eq_true _ ▸ h3) (Bool.not_eq_true _ ▸ h4)
        rcases strLe_total x.2.1 y.2.1 with hs | hs
        · left; exact bundleLE_intro (Or.inr ⟨h, Or.inr ⟨he, hs⟩⟩)
        · right; exact bundleLE_intro (Or.inr ⟨h.symm, Or.inr ⟨he.symm, hs⟩⟩)
  · left; exact bundleLE_intro (Or.inl h)

theorem bundleLE_trans : ∀ x y z : String × String × Nat,
    bundleLE x y = true → bundleLE y z = true → bundleLE x z = true := by
  intro x y z hxy hyz
  rcases bundleLE_elim hxy with h1 | ⟨h1, hr1⟩ <;>
    rcases bundleLE_elim hyz with h2 | ⟨h2, hr2⟩
  · exact bundleLE_intro (Or.inl (by omega))
  · exact bundleLE_intro (Or.inl (by omega))
  · exact bundleLE_intro (Or.inl (by omega))
  · refine bundleLE_intro (Or.inr ⟨by omega, ?_⟩)
    rcases hr1 with hlt1 | ⟨he1, hs1⟩ <;> rcases hr2 with hlt2 | ⟨he2, hs2⟩
    · left; exact strLt_trans hlt1 hlt2
    · left; rw [← he2]; exact hlt1
    · left; rw [he1]; exact hlt2
    · right; exact ⟨he1.trans he2, strLe_trans hs1 hs2⟩

/-! #### `QueryService.bfs_related`

The `while queue` loop is modelled with explicit fuel; `bfs_related` runs it
with fuel `1 + (total adjacency size)`, which `bfs_fuel_sufficient` below
proves is always enough (the `Bool` component of `bfsLoop` records whether
the queue was fully drained). -/

/-- `result[start_item].setdefault(next_depth, set()).add(neighbor)`. -/
def addToBucket (r : Dict Nat (List String)) (d : Nat) (x : String) :
    Dict Nat (List String) :=
  dinsert r d ((dlookup r d).getD [] ++ [x])

/-- The `for neighbor, weight in neighbors.items()` body: skip visited
neighbours and weak edges, otherwise mark visited, record the depth and
enqueue. -/
def bfsExpand (minw depth : Nat) :
    List (String × Nat) → List String → Dict Nat (List String) →
      List (String × Nat) →
      List String × Dict Nat (List String) × List (String × Nat)
  | [], visited, result, newq => (visited, result, newq)
  | (nb, w) :: rest, visited, result, newq =>
    if nb ∈ visited then bfsExpand minw depth rest visited result newq
    else if w < minw then bfsExpand minw depth rest visited result newq
    else bfsExpand minw depth rest (nb :: visited)
      (addToBucket result (depth + 1) nb) (newq ++ [(nb, depth + 1)])

/-- The `while queue` loop of `bfs_related`, with explicit fuel; the flag is
`true` iff the queue was drained before the fuel ran out. -/
def bfsLoop (g : Graph) (maxd minw : Nat) :
    Nat → List (String × Nat) → List String → Dict Nat (List String) →
      Dict Nat (List String) × Bool
  | 0, queue, _, result => (result, queue.isEmpty)
  | _ + 1, [], _, result => (result, true)
  | fuel + 1, (cur, depth) :: rest, visited, result =>
    if maxd ≤ depth then bfsLoop g maxd minw fuel rest visited result
    else
      let s := bfsExpand minw depth (neighborsOf g cur) visited result []
      bfsLoop g maxd minw fuel (rest ++ s.2.2) s.1 s.2.1

/-- All neighbour entries of all adjacency lists, used to bound the number
of BFS enqueues. -/
def graphAdj (g : Graph) : List (String × Nat) :=
  (g.map fun e => e.2).flatten

/-- `QueryService.bfs_related` (the returned pair models the one-key dict
`{start_item: {...}}`; depth buckets are item lists built by first
insertion, read as sets). -/
def bfs_related (g : Graph) (start : String) (maxd minw : Nat) :
    String × Dict Nat (List String) :=
  match dlookup g start with
  | none => (start, [])
  | some _ =>
    (start, (bfsLoop g maxd minw ((graphAdj g).length + 1) [(start, 0)] [start] []).1)

/-- Membership of an item in the depth-`d` bucket of a BFS result. -/
def inBucket (r : Dict Nat (List String)) (d : Nat) (x : String) : Prop :=
  x ∈ (dlookup r d).getD []

theorem inBucket_addToBucket_self (r : Dict Nat (List String)) (d : Nat) (x : String) :
    inBucket (addToBucket r d x) d x := by
  unfold inBucket addToBucket
  rw [dlookup_dinsert_self]
  simp

theorem inBucket_addToBucket (r : Dict Nat (List String)) (d0 : Nat) (y : String)
    (d : Nat) (x : String) :
    inBucket (addToBucket r d0 y) d x ↔ inBucket r d x ∨ (d = d0 ∧ x = y) := by
  unfold inBucket addToBucket
  by_cases hd : d = d0
  · rw [hd, dlookup_dinsert_self]
    simp only [Option.getD_some, List.mem_append, List.mem_singleton]
    tauto
  · rw [dlookup_dinsert_ne _ _ _ _ hd]
    constructor
    · intro h; left; exact h
    · rintro (h | ⟨h, -⟩)
      · exact h
      · exact absurd h hd

theorem bfsExpand_visited_mono (minw depth : Nat) :
    ∀ (ns : List (String × Nat)) (visited : List String)
      (result : Dict Nat (List String)) (newq : List (String × Nat)),
      ∀ v ∈ visited, v ∈ (bfsExpand minw depth ns visited result newq).1
  | [], visited, result, newq => by intro v hv; exact hv
  | (nb, w) :: rest, visited, result, newq => by
    intro v hv
    simp only [bfsExpand]
    by_cases h1 : nb ∈ visited
    · rw [if_pos h1]
      exact bfsExpand_visited_mono minw depth rest _ _ _ v hv
    · rw [if_neg h1]
      by_cases h2 : w < minw
      · rw [if_pos h2]
        exact bfsExpand_visited_mono minw depth rest _ _ _ v hv
      · rw [if_neg h2]
        exact bfsExpand_visited_mono minw depth rest _ _ _ v
          (List.mem_cons_of_mem _ hv)

theorem bfsExpand_bucket_mono (minw depth : Nat) :
    ∀ (ns : List (String × Nat)) (visited : List String)
      (result : Dict Nat (List String)) (newq : List (String × Nat)),
      ∀ d x, inBucket result d x →
        inBucket (bfsExpand minw depth ns visited result newq).2.1 d x
  | [], visited, result, newq => by intro d x h; exact h
  | (nb, w) :: rest, visited, result, newq => by
    intro d x h
    simp only [bfsExpand]
    by_cases h1 : nb ∈ visited
    · rw [if_pos h1]
      exact bfsExpand_bucket_mono minw depth rest _ _ _ d x h
    · rw [if_neg h1]
      by_cases h2 : w < minw
      · rw [if_pos h2]
        exact bfsExpand_bucket_mono minw depth rest _ _ _ d x h
      · rw [if_neg h2]
        exact bfsExpand_bucket_mono minw depth rest _ _ _ d x
          ((inBucket_addToBucket _ _ _ _ _).2 (Or.inl h))

/-- Every qualifying neighbour ends up visited after the scan. -/
theorem bfsExpand_complete (minw depth : Nat) :
    ∀ (ns : List (String × Nat)) (visited : List String)
      (result : Dict Nat (List String)) (newq : List (String × Nat)),
      ∀ bw ∈ ns, minw ≤ bw.2 → bw.1 ∈ (bfsExpand minw depth ns visited result newq).1
  | [], visited, result, newq => by intro bw h; simp at h
  | (nb, w) :: rest, visited, result, newq => by
    intro bw hbw hw
    simp only [bfsExpand]
    rcases List.mem_cons.1 hbw with h1 | h1
    · by_cases h2 : nb ∈ visited
      · rw [if_pos h2]
        apply bfsExpand_visited_mono minw depth rest _ _ _
        rw [h1]
        exact h2
      · rw [if_neg h2]
        have hw' : ¬ w < minw := by
          have : bw.2 = w := by rw [h1]
          omega
        rw [if_neg hw']
        apply bfsExpand_visited_mono minw depth rest _ _ _
        rw [h1]
        exact List.mem_cons_self _ _
    · by_cases h2 : nb ∈ visited
      · rw [if_pos h2]
        exact bfsExpand_complete minw depth rest _ _ _ bw h1 hw
      · rw [if_neg h2]
        by_cases h3 : w < minw
        · rw [if_pos h3]
          exact bfsExpand_complete minw depth rest _ _ _ bw h1 hw
        · rw [if_neg h3]
          exact bfsExpand_complete minw depth rest _ _ _ bw h1 hw

/-- Everything visited after the scan was visited before or was placed in
the `depth + 1` bucket. -/
theorem bfsExpand_visited_charact (minw depth : Nat) :
    ∀ (ns : List (String × Nat)) (visited : List String)
      (result : Dict Nat (List String)) (newq : List (String × Nat)),
      ∀ v ∈ (bfsExpand minw depth ns visited result newq).1,
        v ∈ visited ∨ inBucket (bfsExpand minw depth ns visited result newq).2.1
          (depth + 1) v
  | [], visited, result, newq => by intro v hv; left; exact hv
  | (nb, w) :: rest, visited, result, newq => by
    intro v hv
    simp only [bfsExpand] at hv ⊢
    by_cases h1 : nb ∈ visited
    · rw [if_pos h1] at hv ⊢
      exact bfsExpand_visited_charact minw depth rest _ _ _ v hv
    · rw [if_neg h1] at hv ⊢
      by_cases h2 : w < minw
      · rw [if_pos h2] at hv ⊢
        exact bfsExpand_visited_charact minw depth rest _ _ _ v hv
      · rw [if_neg h2] at hv ⊢
        rcases bfsExpand_visited_charact minw depth rest _ _ _ v hv with h3 | h3
        · rcases List.mem_cons.1 h3 with h4 | h4
          · right
            rw [h4]
            exact bfsExpand_bucket_mono minw depth rest _ _ _ _ _
              (inBucket_addToBucket_self result (depth + 1) nb)
          · left; exact h4
        · right; exact h3

/-- Every newly enqueued entry carries depth `depth + 1` and sits in that
bucket. -/
theorem bfsExpand_newq_charact (minw depth : Nat) :
    ∀ (ns : List (String × Nat)) (visited : List String)
      (result : Dict Nat (List String)) (newq : List (String × Nat)),
      ∀ q ∈ (bfsExpand minw depth ns visited result newq).2.2,
        q ∈ newq ∨ (q.2 = depth + 1 ∧
          inBucket (bfsExpand minw depth ns visited result newq).2.1 (depth + 1) q.1)
  | [], visited, result, newq => by intro q hq; left; exact hq
  | (nb, w) :: rest, visited, result, newq => by
    intro q hq
    simp only [bfsExpand] at hq ⊢
    by_cases h1 : nb ∈ visited
    · rw [if_pos h1] at hq ⊢
      exact bfsExpand_newq_charact minw depth rest _ _ _ q hq
    · rw [if_neg h1] at hq ⊢
      by_cases h2 : w < minw
      · rw [if_pos h2] at hq ⊢
        exact bfsExpand_newq_charact minw depth rest _ _ _ q hq
      · rw [if_neg h2] at hq ⊢
        rcases bfsExpand_newq_charact minw depth rest _ _ _ q hq with h3 | h3
        · rcases List.mem_append.1 h3 with h4 | h4
          · left; exact h4
          · right
            simp only [List.mem_singleton] at h4
            rw [h4]
            refine ⟨rfl, ?_⟩
            exact bfsExpand_bucket_mono minw depth rest _ _ _ _ _
              (inBucket_addToBucket_self result (depth + 1) nb)
        · right; exact h3

/-- The properties of a BFS result dictionary that `bfs_related` guarantees:
nonempty duplicate-free buckets, each item in at most one bucket, `start`
excluded, depths within `1..maxd`, and every item discovered over an edge of
weight ≥ `minw` from the previous level (or from `start` at depth 1). -/
def ResultOK (g : Graph) (maxd minw : Nat) (start : String)
    (r : Dict Nat (List String)) : Prop :=
  (∀ d, ((dlookup r d).getD []).Nodup) ∧
  (∀ d d' x, inBucket r d x → inBucket r d' x → d = d') ∧
  (∀ d x, inBucket r d x → x ≠ start) ∧
  (∀ d x, inBucket r d x → 1 ≤ d ∧ d ≤ maxd) ∧
  (∀ d x, inBucket r d x → ∃ c w, (x, w) ∈ neighborsOf g c ∧ minw ≤ w ∧
      ((d = 1 ∧ c = start) ∨ (2 ≤ d ∧ inBucket r (d - 1) c))) ∧
  (∀ d xs, dlookup r d = some xs → xs ≠ [])

/-- The traversal-state invariant: `start` is visited, all recorded items
are visited, and the result is well formed. -/
def StateOK (g : Graph) (maxd minw : Nat) (start : String)
    (visited : List String) (r : Dict Nat (List String)) : Prop :=
  start ∈ visited ∧ (∀ d x, inBucket r d x → x ∈ visited) ∧
    ResultOK g maxd minw start r

/-- The queue invariant: every queued entry is `start` at depth 0 or an item
recorded at its queued depth, and depths never exceed `maxd`. -/
def QueueOK (maxd : Nat) (start : String) (r : Dict Nat (List String))
    (queue : List (String × Nat)) : Prop :=
  ∀ q ∈ queue, ((q.1 = start ∧ q.2 = 0) ∨ inBucket r q.2 q.1) ∧ q.2 ≤ maxd

theorem bfsExpand_stateOK (g : Graph) (maxd minw : Nat) (start cur : String)
    (depth : Nat) (hdep : depth + 1 ≤ maxd) :
    ∀ (ns : List (String × Nat)) (visited : List String)
      (result : Dict Nat (List String)) (newq : List (String × Nat)),
      (∀ bw ∈ ns, bw ∈ neighborsOf g cur) →
      ((cur = start ∧ depth = 0) ∨ inBucket result depth cur) →
      StateOK g maxd minw start visited result →
      StateOK g maxd minw start (bfsExpand minw depth ns visited result newq).1
        (bfsExpand minw depth ns visited result newq).2.1
  | [], visited, result, newq => by
    intro _ _ hst
    exact hst
  | (nb, w) :: rest, visited, result, newq => by
    intro hns hcur hst
    simp only [bfsExpand]
    by_cases h1 : nb ∈ visited
    · rw [if_pos h1]
      exact bfsExpand_stateOK g maxd minw start cur depth hdep rest _ _ _
        (fun bw hbw => hns bw (List.mem_cons_of_mem _ hbw)) hcur hst
    · rw [if_neg h1]
      by_cases h2 : w < minw
      · rw [if_pos h2]
        exact bfsExpand_stateOK g maxd minw start cur depth hdep rest _ _ _
          (fun bw hbw => hns bw (List.mem_cons_of_mem _ hbw)) hcur hst
      · rw [if_neg h2]
        obtain ⟨hstart, hsub, hnd, huniq, hnst, hrange, hprov, hne⟩ := hst
        have hnbs : nb ≠ start := fun he => h1 (he ▸ hstart)
        have hmemB : ∀ d x, inBucket (addToBucket result (depth + 1) nb) d x ↔
            inBucket result d x ∨ (d = depth + 1 ∧ x = nb) :=
          fun d x => inBucket_addToBucket result (depth + 1) nb d x
        apply bfsExpand_stateOK g maxd minw start cur depth hdep rest _ _ _
          (fun bw hbw => hns bw (List.mem_cons_of_mem _ hbw))
        · rcases hcur with hc | hc
          · left; exact hc
          · right; exact (hmemB depth cur).2 (Or.inl hc)
        · refine ⟨List.mem_cons_of_mem _ hstart, ?_, ?_, ?_, ?_, ?_, ?_, ?_⟩
          · intro d x hx
            rcases (hmemB d x).1 hx with h3 | ⟨-, h3⟩
            · exact List.mem_cons_of_mem _ (hsub d x h3)
            · rw [h3]; exact List.mem_cons_self _ _
          · intro d
            by_cases hd : d = depth + 1
            · rw [hd]
              unfold addToBucket
              rw [dlookup_dinsert_self]
              simp only [Option.getD_some]
              rw [List.nodup_append]
              refine ⟨hnd (depth + 1), List.nodup_singleton _, ?_⟩
              intro a ha hb
              simp only [List.mem_singleton] at hb
              rw [hb] at ha
              exact h1 (hsub _ _ ha)
            · unfold addToBucket
              rw [dlookup_dinsert_ne _ _ _ _ hd]
              exact hnd d
          · intro d d' x hx hx'
            rcases (hmemB d x).1 hx with h3 | ⟨h3, h4⟩ <;>
              rcases (hmemB d' x).1 hx' with h5 | ⟨h5, h6⟩
            · exact huniq d d' x h3 h5
            · exact absurd (h6 ▸ hsub d x h3) h1
            · exact absurd (h4 ▸ hsub d' x h5) h1
            · rw [h3, h5]
          · intro d x hx
            rcases (hmemB d x).1 hx with h3 | ⟨-, h4⟩
            · exact hnst d x h3
            · rw [h4]; exact hnbs
          · intro d x hx
            rcases (hmemB d x).1 hx with h3 | ⟨h3, -⟩
            · exact hrange d x h3
            · rw [h3]; omega
          · intro d x hx
            rcases (hmemB d x).1 hx with h3 | ⟨h3, h4⟩
            · rcases hprov d x h3 with ⟨c, w', hcw, hminw, hcase⟩
              refine ⟨c, w', hcw, hminw, ?_⟩
              rcases hcase with hca | ⟨hd2, hcb⟩
              · left; exact hca
              · right; exact ⟨hd2, (hmemB (d - 1) c).2 (Or.inl hcb)⟩
            · rw [h3, h4]
              refine ⟨cur, w, hns (nb, w) (List.mem_cons_self _ _), by omega, ?_⟩
              rcases hcur with ⟨hc1, hc2⟩ | hc
              · left
                exact ⟨by omega, hc1⟩
              · right
                have hd1 : 1 ≤ depth := (hrange depth cur hc).1
                refine ⟨by omega, ?_⟩
                show inBucket (addToBucket result (depth + 1) nb) (depth + 1 - 1) cur
                have heq : depth + 1 - 1 = depth := rfl
                rw [heq]
                exact (hmemB depth cur).2 (Or.inl hc)
          · intro d xs hxs
            by_cases hd : d = depth + 1
            · rw [hd] at hxs
              unfold addToBucket at hxs
              rw [dlookup_dinsert_self] at hxs
              cases hxs
              simp
            · unfold addToBucket at hxs
              rw [dlookup_dinsert_ne _ _ _ _ hd] at hxs
              exact hne d xs hxs

theorem bfsLoop_bucket_mono (g : Graph) (maxd minw : Nat) :
    ∀ (fuel : Nat) (queue : List (String × Nat)) (visited : List String)
      (result : Dict Nat (List String)) (d : Nat) (x : String),
      inBucket result d x →
      inBucket (bfsLoop g maxd minw fuel queue visited result).1 d x
  | 0, queue, visited, result => by intro d x h; exact h
  | fuel + 1, [], visited, result => by intro d x h; exact h
  | fuel + 1, (cur, depth) :: rest, visited, result => by
    intro d x h
    simp only [bfsLoop]
    by_cases hd : maxd ≤ depth
    · rw [if_pos hd]
      exact bfsLoop_bucket_mono g maxd minw fuel rest visited result d x h
    · rw [if_neg hd]
      exact bfsLoop_bucket_mono g maxd minw fuel
        (rest ++ (bfsExpand minw depth (neighborsOf g cur) visited result []).2.2)
        (bfsExpand minw depth (neighborsOf g cur) visited result []).1
        (bfsExpand minw depth (neighborsOf g cur) visited result []).2.1 d x
        (bfsExpand_bucket_mono minw depth _ _ _ _ d x h)

theorem bfsLoop_resultOK (g : Graph) (maxd minw : Nat) (start : String) :
    ∀ (fuel : Nat) (queue : List (String × Nat)) (visited : List String)
      (result : Dict Nat (List String)),
      StateOK g maxd minw start visited result →
      QueueOK maxd start result queue →
      ResultOK g maxd minw start (bfsLoop g maxd minw fuel queue visited result).1
  | 0, queue, visited, result => fun hst _ => hst.2.2
  | fuel + 1, [], visited, result => fun hst _ => hst.2.2
  | fuel + 1, (cur, depth) :: rest, visited, result => by
    intro hst hq
    simp only [bfsLoop]
    by_cases hd : maxd ≤ depth
    · rw [if_pos hd]
      exact bfsLoop_resultOK g maxd minw start fuel rest visited result hst
        (fun q hq2 => hq q (List.mem_cons_of_mem _ hq2))
    · rw [if_neg hd]
      have hdep : depth + 1 ≤ maxd := by omega
      have hcur : (cur = start ∧ depth = 0) ∨ inBucket result depth cur :=
        (hq (cur, depth) (List.mem_cons_self _ _)).1
      have hst' := bfsExpand_stateOK g maxd minw start cur depth hdep
        (neighborsOf g cur) visited result [] (fun _ h => h) hcur hst
      apply bfsLoop_resultOK g maxd minw start fuel _ _ _ hst'
      intro q hq2
      rcases List.mem_append.1 hq2 with h1 | h1
      · have hold := hq q (List.mem_cons_of_mem _ h1)
        refine ⟨?_, hold.2⟩
        rcases hold.1 with h2 | h2
        · left; exact h2
        · right; exact bfsExpand_bucket_mono minw depth _ _ _ _ _ _ h2
      · rcases bfsExpand_newq_charact minw depth _ _ _ _ q h1 with h2 | ⟨h2, h3⟩
        · simp at h2
        · refine ⟨Or.inr ?_, by omega⟩
          rw [h2]
          exact h3

/-! #### Termination of the BFS loop -/

/-- The number of adjacency entries whose item is not yet visited; each BFS
enqueue strictly decreases it. -/
def remainingAdj (g : Graph) (v : List String) : Nat :=
  List.countP (fun nb => decide (nb.1 ∉ v)) (graphAdj g)

theorem countP_le_of_imp {α : Type} (p q : α → Bool) :
    ∀ l : List α, (∀ a ∈ l, p a = true → q a = true) → l.countP p ≤ l.countP q
  | [], _ => Nat.le_refl _
  | b :: rest, h => by
    rw [List.countP_cons, List.countP_cons]
    have hrec := countP_le_of_imp p q rest fun a ha => h a (List.mem_cons_of_mem _ ha)
    by_cases hb : p b = true
    · rw [if_pos hb, if_pos (h b (List.mem_cons_self _ _) hb)]
      omega
    · rw [if_neg hb]
      by_cases hqb : q b = true
      · rw [if_pos hqb]; omega
      · rw [if_neg hqb]; omega

theorem countP_succ_le {α : Type} (p q : α → Bool) (a₀ : α) :
    ∀ l : List α, a₀ ∈ l → p a₀ = false → q a₀ = true →
      (∀ a ∈ l, p a = true → q a = true) → l.countP p + 1 ≤ l.countP q
  | [], h, _, _, _ => absurd h (List.not_mem_nil _)
  | b :: rest, hmem, hp, hq0, h => by
    rw [List.countP_cons, List.countP_cons]
    rcases List.mem_cons.1 hmem with h1 | h1
    · have hpb : p b = false := h1 ▸ hp
      have hqb : q b = true := h1 ▸ hq0
      rw [if_neg (by rw [hpb]; exact Bool.false_ne_true), if_pos hqb]
      have := countP_le_of_imp p q rest fun a ha => h a (List.mem_cons_of_mem _ ha)
      omega
    · have hrec := countP_succ_le p q a₀ rest h1 hp hq0
        fun a ha => h a (List.mem_cons_of_mem _ ha)
      by_cases hb : p b = true
      · rw [if_pos hb, if_pos (h b (List.mem_cons_self _ _) hb)]
        omega
      · rw [if_neg hb]
        by_cases hqb : q b = true
        · rw [if_pos hqb]; omega
        · rw [if_neg hqb]; omega

theorem neighborsOf_sub_graphAdj (g : Graph) (cur : String) :
    ∀ bw ∈ neighborsOf g cur, bw ∈ graphAdj g := by
  intro bw hbw
  unfold neighborsOf at hbw
  cases hl : dlookup g cur with
  | none => rw [hl] at hbw; simp at hbw
  | some inner =>
    rw [hl] at hbw
    simp only [Option.getD_some] at hbw
    have hmem : (cur, inner) ∈ g := dlookup_mem g cur inner hl
    unfold graphAdj
    rw [List.mem_flatten]
    exact ⟨inner, List.mem_map_of_mem _ hmem, hbw⟩

theorem remainingAdj_cons_lt (g : Graph) (v : List String) (nb : String) (w : Nat)
    (hmem : (nb, w) ∈ graphAdj g) (hnb : nb ∉ v) :
    remainingAdj g (nb :: v) + 1 ≤ remainingAdj g v := by
  unfold remainingAdj
  apply countP_succ_le _ _ (nb, w) _ hmem
  · simp
  · simp [hnb]
  · intro a _ ha
    simp only [decide_eq_true_eq] at ha ⊢
    intro hc
    exact ha (List.mem_cons_of_mem _ hc)

/-- Scanning one adjacency list cannot increase the termination measure:
each enqueue is paid for by a newly visited adjacency item. -/
theorem bfsExpand_measure (g : Graph) (minw depth : Nat) :
    ∀ (ns : List (String × Nat)) (visited : List String)
      (result : Dict Nat (List String)) (newq : List (String × Nat)),
      (∀ bw ∈ ns, bw ∈ graphAdj g) →
      (bfsExpand minw depth ns visited result newq).2.2.length
          + remainingAdj g (bfsExpand minw depth ns visited result newq).1
        ≤ newq.length + remainingAdj g visited
  | [], visited, result, newq => fun _ => Nat.le_refl _
  | (nb, w) :: rest, visited, result, newq => by
    intro hsub
    simp only [bfsExpand]
    by_cases h1 : nb ∈ visited
    · rw [if_pos h1]
      exact bfsExpand_measure g minw depth rest _ _ _
        fun bw h => hsub bw (List.mem_cons_of_mem _ h)
    · rw [if_neg h1]
      by_cases h2 : w < minw
      · rw [if_pos h2]
        exact bfsExpand_measure g minw depth rest _ _ _
          fun bw h => hsub bw (List.mem_cons_of_mem _ h)
      · rw [if_neg h2]
        have hrec := bfsExpand_measure g minw depth rest (nb :: visited)
          (addToBucket result (depth + 1) nb) (newq ++ [(nb, depth + 1)])
          fun bw h => hsub bw (List.mem_cons_of_mem _ h)
        have hdec := remainingAdj_cons_lt g visited nb w
          (hsub (nb, w) (List.mem_cons_self _ _)) h1
        have hlen : (newq ++ [(nb, depth + 1)]).length = newq.length + 1 := by
          simp
        omega

/-- With fuel at least `queue length + unvisited adjacency entries`, the BFS
loop drains its queue. -/
theorem bfsLoop_fuel (g : Graph) (maxd minw : Nat) :
    ∀ (fuel : Nat) (queue : List (String × Nat)) (visited : List String)
      (result : Dict Nat (List String)),
      queue.length + remainingAdj g visited ≤ fuel →
      (bfsLoop g maxd minw fuel queue visited result).2 = true
  | 0, queue, visited, result => by
    intro h
    have hq : queue.length = 0 := by omega
    rw [List.length_eq_zero] at hq
    rw [hq]
    simp [bfsLoop]
  | fuel + 1, [], visited, result => by
    intro _
    simp [bfsLoop]
  | fuel + 1, (cur, depth) :: rest, visited, result => by
    intro h
    simp only [bfsLoop]
    by_cases hd : maxd ≤ depth
    · rw [if_pos hd]
      apply bfsLoop_fuel g maxd minw fuel rest visited result
      simp only [List.length_cons] at h
      omega
    · rw [if_neg hd]
      apply bfsLoop_fuel g maxd minw fuel
      have hmeas := bfsExpand_measure g minw depth (neighborsOf g cur) visited result []
        (neighborsOf_sub_graphAdj g cur)
      simp only [List.length_nil] at hmeas
      simp only [List.length_cons] at h
      rw [List.length_append]
      omega

/-- The fuel `bfs_related` supplies is always sufficient. -/
theorem bfs_fuel_sufficient (g : Graph) (maxd minw : Nat) (start : String) :
    (bfsLoop g maxd minw ((graphAdj g).length + 1) [(start, 0)] [start] []).2 = true := by
  apply bfsLoop_fuel
  have h := List.countP_le_length
    (p := fun nb : String × Nat => decide (nb.1 ∉ [start])) (l := graphAdj g)
  unfold remainingAdj
  simp only [List.length_cons, List.length_nil]
  omega

theorem resultOK_nil (g : Graph) (maxd minw : Nat) (start : String) :
    ResultOK g maxd minw start [] := by
  refine ⟨?_, ?_, ?_, ?_, ?_, ?_⟩
  · intro d; simp [dlookup]
  · intro d d' x h; simp [inBucket, dlookup] at h
  · intro d x h; simp [inBucket, dlookup] at h
  · intro d x h; simp [inBucket, dlookup] at h
  · intro d x h; simp [inBucket, dlookup] at h
  · intro d xs h; simp [dlookup] at h

theorem bfs_related_resultOK (g : Graph) (maxd minw : Nat) (start : String) :
    ResultOK g maxd minw start (bfs_related g start maxd minw).2 := by
  unfold bfs_related
  cases hl : dlookup g start with
  | none => exact resultOK_nil g maxd minw start
  | some inner =>
    apply bfsLoop_resultOK
    · refine ⟨List.mem_singleton.2 rfl, ?_, resultOK_nil g maxd minw start⟩
      intro d x h
      simp [inBucket, dlookup] at h
    · intro q hq
      simp only [List.mem_singleton] at hq
      rw [hq]
      exact ⟨Or.inl ⟨rfl, rfl⟩, by omega⟩

/-- Start absent from the graph: the result is `{start: {}}`. -/
theorem bfs_related_unknown (g : Graph) (maxd minw : Nat) (start : String)
    (h : dlookup g start = none) : bfs_related g start maxd minw = (start, []) := by
  unfold bfs_related
  rw [h]

/-- Every direct neighbour of `start` whose edge is strong enough lands in
the depth-1 bucket (when at least one hop is allowed). -/
theorem bfs_related_first_level (g : Graph) (maxd minw : Nat) (start : String)
    (inner : Dict String Nat) (hstart : dlookup g start = some inner)
    (hmax : 1 ≤ maxd) :
    ∀ bw ∈ inner, minw ≤ bw.2 → bw.1 ≠ start →
      inBucket (bfs_related g start maxd minw).2 1 bw.1 := by
  intro bw hbw hw hne
  have hns : neighborsOf g start = inner := by
    unfold neighborsOf
    rw [hstart]
    rfl
  have hres : (bfs_related g start maxd minw).2 =
      (bfsLoop g maxd minw ((graphAdj g).length + 1) [(start, 0)] [start] []).1 := by
    unfold bfs_related
    rw [hstart]
  rw [hres]
  have hstep : bfsLoop g maxd minw ((graphAdj g).length + 1) [(start, 0)] [start] []
      = bfsLoop g maxd minw (graphAdj g).length
          ([] ++ (bfsExpand minw 0 (neighborsOf g start) [start] [] []).2.2)
          (bfsExpand minw 0 (neighborsOf g start) [start] [] []).1
          (bfsExpand minw 0 (neighborsOf g start) [start] [] []).2.1 := by
    simp only [bfsLoop]
    rw [if_neg (by omega : ¬ maxd ≤ 0)]
  rw [hstep]
  apply bfsLoop_bucket_mono
  have hvis : bw.1 ∈ (bfsExpand minw 0 (neighborsOf g start) [start] [] []).1 := by
    apply bfsExpand_complete minw 0 (neighborsOf g start) [start] [] [] bw _ hw
    rw [hns]
    exact hbw
  rcases bfsExpand_visited_charact minw 0 (neighborsOf g start) [start] [] [] bw.1 hvis
    with h1 | h1
  · simp only [List.mem_singleton] at h1
    exact absurd h1 hne
  · exact h1

/-! ### `TransactionLoader` (src/transaction_loader.py)

The input is modelled as a filesystem map from paths to parsed CSV files
(header row plus data rows); `none` models a missing file
(`FileNotFoundError`).  `csv.DictReader` turns each data row into a dict
keyed by the header fields, short rows padded with `restval = None`;
accessing a field name absent from the header raises `KeyError`, which the
loader converts to the schema error, while calling `.strip()` on a `None`
value would raise `AttributeError` (modelled as `attrError`). -/

inductive LoadError where
  | sourceNotFound : String → LoadError
  | schemaError : String → LoadError
  | attrError : LoadError
deriving DecidableEq

structure CsvFile where
  header : List String
  rows : List (List String)

/-- The dict a `csv.DictReader` row produces: every header field keyed to
its positional value, `none` when the row is too short. -/
def rowRecord (header row : List String) : Dict String (Option String) :=
  (header.enum.map fun p => (p.2, row.get? p.1)).foldl
    (fun d p => dinsert d p.1 p.2) []

/-- `row[f]`: `KeyError f` when `f` is not a field of the row dict. -/
def fetchCol (rcd : Dict String (Option String)) (f : String) :
    Except String (Option String) :=
  match dlookup rcd f with
  | none => Except.error f
  | some v => Except.ok v

/-- The characters Python `str.strip()` removes. -/
def isPySpace (c : Char) : Bool :=
  c = ' ' ∨ c = '\t' ∨ c = '\n' ∨ c = '\r' ∨ c = '\x0b' ∨ c = '\x0c'

/-- Python `s.strip()`. -/
def pyStrip (s : String) : String :=
  String.mk (((s.data.dropWhile isPySpace).reverse.dropWhile isPySpace).reverse)

/-- The grouping key `(row['Member_number'], row['Date'])`, values taken
verbatim (possibly `None` for short rows). -/
abbrev BasketKey := Option String × Option String

/-- `baskets_dict[key].add(item)` on a `defaultdict(set)`, the set modelled
as its insertion-ordered duplicate-free list. -/
def addBasketItem (d : Dict BasketKey (List String)) (k : BasketKey) (it : String) :
    Dict BasketKey (List String) :=
  let cur := (dlookup d k).getD []
  dinsert d k (if it ∈ cur then cur else cur ++ [it])

/-- The row loop of `load_from_csv`. -/
def processRows (header : List String) :
    List (List String) → Dict BasketKey (List String) →
      Except LoadError (Dict BasketKey (List String))
  | [], acc => Except.ok acc
  | row :: rest, acc =>
    match fetchCol (rowRecord header row) "Member_number" with
    | Except.error f => Except.error (LoadError.schemaError f)
    | Except.ok m =>
      match fetchCol (rowRecord header row) "Date" with
      | Except.error f => Except.error (LoadError.schemaError f)
      | Except.ok d =>
        match fetchCol (rowRecord header row) "itemDescription" with
        | Except.error f => Except.error (LoadError.schemaError f)
        | Except.ok none => Except.error LoadError.attrError
        | Except.ok (some itRaw) =>
          processRows header rest
            (if pyStrip itRaw ≠ "" then addBasketItem acc (m, d) (pyStrip itRaw)
              else acc)

/-- `TransactionLoader.load_from_csv`. -/
def load_from_csv (filepath : String) (fs : String → Option CsvFile) :
    Except LoadError (List (List String)) :=
  match fs filepath with
  | none => Except.error (LoadError.sourceNotFound filepath)
  | some f =>
    match processRows f.header f.rows [] with
    | Except.error e => Except.error e
    | Except.ok d => Except.ok (d.map fun e => sortBy strLe e.2)

theorem mem_dkeys_dinsert {α β : Type} [DecidableEq α] (d : Dict α β) (k : α) (v : β)
    (k' : α) : k' ∈ dkeys (dinsert d k v) ↔ k' ∈ dkeys d ∨ k' = k := by
  by_cases h : k ∈ dkeys d
  · rw [dkeys_dinsert_mem d k v h]
    constructor
    · intro h1; left; exact h1
    · rintro (h1 | h1)
      · exact h1
      · rw [h1]; exact h
  · rw [dkeys_dinsert_new d k v h]
    simp

theorem foldl_dinsert_keys {α β : Type} [DecidableEq α] :
    ∀ (pairs : List (α × β)) (d0 : Dict α β) (k : α),
      k ∈ dkeys (pairs.foldl (fun d p => dinsert d p.1 p.2) d0) ↔
        k ∈ dkeys d0 ∨ k ∈ pairs.map Prod.fst
  | [], d0, k => by simp
  | p :: rest, d0, k => by
    rw [List.foldl_cons]
    rw [foldl_dinsert_keys rest (dinsert d0 p.1 p.2) k]
    rw [mem_dkeys_dinsert]
    simp only [List.map_cons, List.mem_cons]
    tauto

theorem rowRecord_keys (header row : List String) (f : String) :
    dlookup (rowRecord header row) f = none ↔ f ∉ header := by
  rw [dlookup_eq_none]
  unfold rowRecord
  rw [foldl_dinsert_keys]
  have hmap : (header.enum.map fun p => (p.2, row.get? p.1)).map Prod.fst = header := by
    rw [List.map_map]
    have : (Prod.fst ∘ fun p : Nat × String => (p.2, row.get? p.1)) =
        fun p : Nat × String => p.2 := rfl
    rw [this]
    exact List.enum_map_snd header
  rw [hmap]
  simp [dkeys]

theorem dropWhile_head_not {α : Type} (p : α → Bool) :
    ∀ l : List α, l.dropWhile p = [] ∨ ∃ a t, l.dropWhile p = a :: t ∧ p a = false
  | [] => Or.inl rfl
  | b :: rest => by
    rw [List.dropWhile_cons]
    by_cases hb : p b = true
    · rw [if_pos hb]; exact dropWhile_head_not p rest
    · rw [if_neg hb]; right; exact ⟨b, rest, rfl, Bool.eq_false_iff.2 hb⟩

theorem dropWhile_eq_self {α : Type} (p : α → Bool) (l : List α)
    (h : l = [] ∨ ∃ a t, l = a :: t ∧ p a = false) : l.dropWhile p = l := by
  rcases h with h | ⟨a, t, he, ha⟩
  · rw [h]; rfl
  · rw [he, List.dropWhile_cons, if_neg (by rw [ha]; exact Bool.false_ne_true)]

theorem dropWhile_append_last {α : Type} (p : α → Bool) (a : α) (ha : p a = false) :
    ∀ w : List α, ∃ w', (w ++ [a]).dropWhile p = w' ++ [a]
  | [] => by
    refine ⟨[], ?_⟩
    rw [List.nil_append, List.dropWhile_cons,
      if_neg (by rw [ha]; exact Bool.false_ne_true)]
  | b :: w2 => by
    rw [List.cons_append, List.dropWhile_cons]
    by_cases hb : p b = true
    · rw [if_pos hb]; exact dropWhile_append_last p a ha w2
    · rw [if_neg hb]
      obtain - := hb
      exact ⟨b :: w2, by rw [List.cons_append]⟩

theorem strip_list_idem {α : Type} (p : α → Bool) (l : List α) :
    (((((((l.dropWhile p).reverse.dropWhile p).reverse).dropWhile p).reverse).dropWhile p).reverse)
      = ((l.dropWhile p).reverse.dropWhile p).reverse := by
  rcases dropWhile_head_not p l with h1 | ⟨a, t1, h1, ha⟩
  · rw [h1]; rfl
  · rw [h1]
    have hrev : (a :: t1).reverse = t1.reverse ++ [a] := by simp
    rw [hrev]
    obtain ⟨w', hw⟩ := dropWhile_append_last p a ha t1.reverse
    rw [hw]
    have hrev2 : (w' ++ [a]).reverse = a :: w'.reverse := by simp
    rw [hrev2]
    rw [List.dropWhile_cons, if_neg (by rw [ha]; exact Bool.false_ne_true)]
    have hrev3 : (a :: w'.reverse).reverse = w' ++ [a] := by simp
    rw [hrev3]
    have hidem : (w' ++ [a]).dropWhile p = w' ++ [a] := by
      rw [← hw]
      apply dropWhile_eq_self
      exact dropWhile_head_not p (t1.reverse ++ [a])
    rw [hidem, hrev2]

/-- `strip()` is idempotent: stripped values are exactly the trimmed ones. -/
theorem pyStrip_idem (s : String) : pyStrip (pyStrip s) = pyStrip s := by
  unfold pyStrip
  exact congrArg String.mk (strip_list_idem isPySpace s.data)

/-- The key and stripped item a row contributes, `none` when the item is
empty after stripping (helper for stating what `load_from_csv` builds; the
match mirrors the row handling of `processRows`). -/
def survivingEntry (header row : List String) : Option (BasketKey × String) :=
  match fetchCol (rowRecord header row) "Member_number",
      fetchCol (rowRecord header row) "Date",
      fetchCol (rowRecord header row) "itemDescription" with
  | Except.ok m, Except.ok d, Except.ok (some itRaw) =>
    if pyStrip itRaw ≠ "" then some ((m, d), pyStrip itRaw) else none
  | _, _, _ => none

/-- The pure accumulation `processRows` performs when no error occurs. -/
def accumulate (header : List String) (rows : List (List String))
    (acc : Dict BasketKey (List String)) : Dict BasketKey (List String) :=
  rows.foldl (fun a row =>
    match survivingEntry header row with
    | some kit => addBasketItem a kit.1 kit.2
    | none => a) acc

theorem processRows_eq_accumulate (header : List String) :
    ∀ (rows : List (List String)) (acc d : Dict BasketKey (List String)),
      processRows header rows acc = Except.ok d → d = accumulate header rows acc
  | [], acc, d => by
    intro h
    simp only [processRows] at h
    cases h
    rfl
  | row :: rest, acc, d => by
    intro h
    simp only [processRows] at h
    cases hm : fetchCol (rowRecord header row) "Member_number" with
    | error f => rw [hm] at h; cases h
    | ok m =>
      rw [hm] at h
      cases hdt : fetchCol (rowRecord header row) "Date" with
      | error f => rw [hdt] at h; cases h
      | ok dte =>
        rw [hdt] at h
        cases hit : fetchCol (rowRecord header row) "itemDescription" with
        | error f => rw [hit] at h; cases h
        | ok v =>
          rw [hit] at h
          cases v with
          | none => cases h
          | some itRaw =>
            have hsurv : survivingEntry header row =
                if pyStrip itRaw ≠ "" then some ((m, dte), pyStrip itRaw) else none := by
              unfold survivingEntry
              rw [hm, hdt, hit]
            have hacc : accumulate header (row :: rest) acc =
                accumulate header rest
                  (if pyStrip itRaw ≠ "" then addBasketItem acc (m, dte) (pyStrip itRaw)
                    else acc) := by
              unfold accumulate
              rw [List.foldl_cons, hsurv]
              by_cases he : pyStrip itRaw ≠ ""
              · rw [if_pos he, if_pos he]
              · rw [if_neg he, if_neg he]
            rw [hacc]
            exact processRows_eq_accumulate header rest _ d h

theorem addBasketItem_lookup (a : Dict BasketKey (List String)) (k : BasketKey)
    (it : String) (k' : BasketKey) :
    (dlookup (addBasketItem a k it) k').getD [] =
      if k' = k then
        (if it ∈ (dlookup a k).getD [] then (dlookup a k).getD []
          else (dlookup a k).getD [] ++ [it])
      else (dlookup a k').getD [] := by
  unfold addBasketItem
  by_cases h : k' = k
  · rw [if_pos h, h, dlookup_dinsert_self]
    rfl
  · rw [if_neg h, dlookup_dinsert_ne _ _ _ _ h]

theorem mem_addBasketItem (a : Dict BasketKey (List String)) (k : BasketKey)
    (it : String) (k' : BasketKey) (x : String) :
    x ∈ (dlookup (addBasketItem a k it) k').getD [] ↔
      x ∈ (dlookup a k').getD [] ∨ (k' = k ∧ x = it) := by
  rw [addBasketItem_lookup]
  by_cases h : k' = k
  · rw [if_pos h, h]
    by_cases hmem : it ∈ (dlookup a k).getD []
    · rw [if_pos hmem]
      constructor
      · intro hx; left; exact hx
      · rintro (hx | ⟨-, hx⟩)
        · exact hx
        · rw [hx]; exact hmem
    · rw [if_neg hmem]
      simp only [List.mem_append, List.mem_singleton]
      tauto
  · rw [if_neg h]
    constructor
    · intro hx; left; exact hx
    · rintro (hx | ⟨hk, -⟩)
      · exact hx
      · exact absurd hk h

theorem accumulate_keys_nodup (header : List String) :
    ∀ (rows : List (List String)) (acc : Dict BasketKey (List String)),
      (dkeys acc).Nodup → (dkeys (accumulate header rows acc)).Nodup
  | [], acc => fun h => h
  | row :: rest, acc => by
    intro h
    unfold accumulate
    rw [List.foldl_cons]
    cases hs : survivingEntry header row with
    | none =>
      exact accumulate_keys_nodup header rest acc h
    | some kit =>
      exact accumulate_keys_nodup header rest _ (dkeys_nodup_dinsert _ _ _ h)

theorem accumulate_keys_mem (header : List String) :
    ∀ (rows : List (List String)) (acc : Dict BasketKey (List String)) (k : BasketKey),
      k ∈ dkeys (accumulate header rows acc) ↔
        k ∈ dkeys acc ∨ ∃ row ∈ rows, ∃ it, survivingEntry header row = some (k, it)
  | [], acc, k => by simp [accumulate]
  | row :: rest, acc, k => by
    cases hs : survivingEntry header row with
    | none =>
      have hstep : accumulate header (row :: rest) acc = accumulate header rest acc := by
        unfold accumulate
        rw [List.foldl_cons, hs]
      rw [hstep]
      rw [accumulate_keys_mem header rest acc k]
      simp only [List.mem_cons]
      constructor
      · rintro (h | ⟨r, hr, it, hit⟩)
        · left; exact h
        · right; exact ⟨r, Or.inr hr, it, hit⟩
      · rintro (h | ⟨r, hr | hr, it, hit⟩)
        · left; exact h
        · rw [hr] at hit
          rw [hit] at hs
          cases hs
        · right; exact ⟨r, hr, it, hit⟩
    | some kit =>
      have hstep : accumulate header (row :: rest) acc =
          accumulate header rest (addBasketItem acc kit.1 kit.2) := by
        unfold accumulate
        rw [List.foldl_cons, hs]
      rw [hstep]
      rw [accumulate_keys_mem header rest _ k]
      unfold addBasketItem
      rw [mem_dkeys_dinsert]
      simp only [List.mem_cons]
      constructor
      · rintro ((h | h) | ⟨r, hr, it, hit⟩)
        · left; exact h
        · right
          refine ⟨row, Or.inl rfl, kit.2, ?_⟩
          rw [hs, h]
        · right; exact ⟨r, Or.inr hr, it, hit⟩
      · rintro (h | ⟨r, hr | hr, it, hit⟩)
        · left; left; exact h
        · rw [hr] at hit
          rw [hit] at hs
          cases hs
          left; right; rfl
        · right; exact ⟨r, hr, it, hit⟩

theorem accumulate_items_mem (header : List String) :
    ∀ (rows : List (List String)) (acc : Dict BasketKey (List String)) (k : BasketKey)
      (x : String),
      x ∈ (dlookup (accumulate header rows acc) k).getD [] ↔
        x ∈ (dlookup acc k).getD [] ∨ ∃ row ∈ rows, survivingEntry header row = some (k, x)
  | [], acc, k, x => by simp [accumulate]
  | row :: rest, acc, k, x => by
    cases hs : survivingEntry header row with
    | none =>
      have hstep : accumulate header (row :: rest) acc = accumulate header rest acc := by
        unfold accumulate
        rw [List.foldl_cons, hs]
      rw [hstep]
      rw [accumulate_items_mem header rest acc k x]
      simp only [List.mem_cons]
      constructor
      · rintro (h | ⟨r, hr, hit⟩)
        · left; exact h
        · right; exact ⟨r, Or.inr hr, hit⟩
      · rintro (h | ⟨r, hr | hr, hit⟩)
        · left; exact h
        · rw [hr] at hit
          rw [hit] at hs
          cases hs
        · right; exact ⟨r, hr, hit⟩
    | some kit =>
      have hstep : accumulate header (row :: rest) acc =
          accumulate header rest (addBasketItem acc kit.1 kit.2) := by
        unfold accumulate
        rw [List.foldl_cons, hs]
      rw [hstep]
      rw [accumulate_items_mem header rest _ k x]
      rw [mem_addBasketItem]
      simp only [List.mem_cons]
      constructor
      · rintro ((h | ⟨hk, hx⟩) | ⟨r, hr, hit⟩)
        · left; exact h
        · right
          refine ⟨row, Or.inl rfl, ?_⟩
          rw [hs, hk, hx]
        · right; exact ⟨r, Or.inr hr, hit⟩
      · rintro (h | ⟨r, hr | hr, hit⟩)
        · left; left; exact h
        · rw [hr] at hit
          rw [hit] at hs
          cases hs
          left; right; exact ⟨rfl, rfl⟩
        · right; exact ⟨r, hr, hit⟩

theorem accumulate_items_nodup (header : List String) :
    ∀ (rows : List (List String)) (acc : Dict BasketKey (List String)),
      (∀ k, ((dlookup acc k).getD []).Nodup) →
      ∀ k, ((dlookup (accumulate header rows acc) k).getD []).Nodup
  | [], acc => fun h => h
  | row :: rest, acc => by
    intro h
    unfold accumulate
    rw [List.foldl_cons]
    cases hs : survivingEntry header row with
    | none =>
      exact accumulate_items_nodup header rest acc h
    | some kit =>
      apply accumulate_items_nodup header rest
      intro k
      rw [addBasketItem_lookup]
      by_cases hk : k = kit.1
      · rw [if_pos hk]
        by_cases hmem : kit.2 ∈ (dlookup acc kit.1).getD []
        · rw [if_pos hmem]
          exact h kit.1
        · rw [if_neg hmem]
          rw [List.nodup_append]
          exact ⟨h kit.1, List.nodup_singleton _,
            fun a ha hb => hmem ((List.mem_singleton.1 hb) ▸ ha)⟩
      · rw [if_neg hk]
        exact h k

theorem fetchCol_missing (header row : List String) (f : String) (h : f ∉ header) :
    fetchCol (rowRecord header row) f = Except.error f := by
  unfold fetchCol
  rw [(rowRecord_keys header row f).2 h]

theorem fetchCol_present (header row : List String) (f : String) (h : f ∈ header) :
    ∃ v, fetchCol (rowRecord header row) f = Except.ok v := by
  unfold fetchCol
  cases hl : dlookup (rowRecord header row) f with
  | none => exact absurd ((rowRecord_keys header row f).1 hl) (by simp [h])
  | some v => exact ⟨v, rfl⟩

/-! #### Counting the canonical edges of a single-basket graph -/

theorem length_pairsInOrder : ∀ l : List String,
    (pairsInOrder l).length = l.length.choose 2
  | [] => rfl
  | x :: xs => by
    simp only [pairsInOrder, List.length_append, List.length_map,
      List.length_cons, length_pairsInOrder xs]
    rw [Nat.choose_succ_succ, Nat.choose_one_right]

/-- The canonical forms of all pairs the double loop visits. -/
def canonList (l : List String) : List (String × String) :=
  (pairsInOrder l).map fun p => canonPair p.1 p.2

theorem canonPair_comm (a b : String) : canonPair a b = canonPair b a := by
  unfold canonPair
  by_cases h1 : strLe a b = true
  · rw [if_pos h1]
    by_cases h2 : strLe b a = true
    · rw [if_pos h2, strLe_antisymm h1 h2]
    · rw [if_neg h2]
  · rw [if_neg h1]
    rcases strLe_total a b with h2 | h2
    · exact absurd h2 h1
    · rw [if_pos h2]

theorem canonPair_fst_or (a b : String) :
    (canonPair a b).1 = a ∨ (canonPair a b).1 = b := by
  rcases canonPair_cases a b with h | h <;> rw [h]
  · left; rfl
  · right; rfl

theorem canonPair_snd_or (a b : String) :
    (canonPair a b).2 = a ∨ (canonPair a b).2 = b := by
  rcases canonPair_cases a b with h | h <;> rw [h]
  · right; rfl
  · left; rfl

theorem pairsInOrder_ne (l : List String) (hnd : l.Nodup) :
    ∀ p ∈ pairsInOrder l, p.1 ≠ p.2 := by
  induction l with
  | nil => intro p hp; simp [pairsInOrder] at hp
  | cons z xs ih =>
    simp only [List.nodup_cons] at hnd
    intro p hp
    simp only [pairsInOrder, List.mem_append, List.mem_map] at hp
    rcases hp with ⟨t, ht, he⟩ | hp
    · rw [← he]
      intro hc
      simp only at hc
      rw [hc] at hnd
      exact hnd.1 ht
    · exact ih hnd.2 p hp

theorem pairs_cover : ∀ (l : List String) (x y : String), x ≠ y → x ∈ l → y ∈ l →
    (x, y) ∈ pairsInOrder l ∨ (y, x) ∈ pairsInOrder l := by
  intro l
  induction l with
  | nil => intro x y _ hx; simp at hx
  | cons z xs ih =>
    intro x y hxy hx hy
    simp only [pairsInOrder, List.mem_append, List.mem_map]
    by_cases hzx : z = x
    · left
      left
      refine ⟨y, ?_, by rw [hzx]⟩
      rcases List.mem_cons.1 hy with h1 | h1
      · exact absurd (h1.trans hzx).symm hxy
      · exact h1
    · by_cases hzy : z = y
      · right
        left
        refine ⟨x, ?_, by rw [hzy]⟩
        rcases List.mem_cons.1 hx with h1 | h1
        · exact absurd (h1.trans hzy) hxy
        · exact h1
      · have hx' : x ∈ xs := by
          rcases List.mem_cons.1 hx with h1 | h1
          · exact absurd h1.symm hzx
          · exact h1
        have hy' : y ∈ xs := by
          rcases List.mem_cons.1 hy with h1 | h1
          · exact absurd h1.symm hzy
          · exact h1
        rcases ih x y hxy hx' hy' with h1 | h1
        · left; right; exact h1
        · right; right; exact h1

theorem canonPair_inj_snd (z t1 t2 : String) (h1 : z ≠ t1) (h2 : z ≠ t2)
    (h : canonPair z t1 = canonPair z t2) : t1 = t2 := by
  rcases canonPair_cases z t1 with hc1 | hc1 <;>
    rcases canonPair_cases z t2 with hc2 | hc2 <;> rw [hc1, hc2] at h
  · exact congrArg Prod.snd h
  · exact absurd (congrArg Prod.fst h) h2
  · exact absurd (congrArg Prod.fst h).symm h1
  · exact congrArg Prod.fst h

theorem canonList_nodup (l : List String) (hnd : l.Nodup) : (canonList l).Nodup := by
  induction l with
  | nil => simp [canonList, pairsInOrder]
  | cons z xs ih =>
    simp only [List.nodup_cons] at hnd
    have hstep : canonList (z :: xs) =
        (xs.map fun t => canonPair z t) ++ canonList xs := by
      show ((xs.map fun y => (z, y)) ++ pairsInOrder xs).map (fun p => canonPair p.1 p.2)
        = (xs.map fun t => canonPair z t) ++ canonList xs
      rw [List.map_append, List.map_map]
      rfl
    rw [hstep, List.nodup_append]
    refine ⟨?_, ih hnd.2, ?_⟩
    · apply List.Nodup.map_on _ hnd.2
      intro t1 ht1 t2 ht2 he
      exact canonPair_inj_snd z t1 t2 (fun h => hnd.1 (h ▸ ht1))
        (fun h => hnd.1 (h ▸ ht2)) he
    · intro p hp1 hp2
      rcases List.mem_map.1 hp1 with ⟨t, ht, he⟩
      rcases List.mem_map.1 hp2 with ⟨q, hq, he2⟩
      have hcomp := mem_pairsInOrder xs q hq
      have hz : p.1 = z ∨ p.2 = z := by
        rw [← he]
        rcases canonPair_cases z t with hc | hc <;> rw [hc]
        · left; rfl
        · right; rfl
      have hzin : z ∈ xs := by
        rcases hz with hz | hz
        · rw [← he2] at hz
          rcases canonPair_fst_or q.1 q.2 with hc | hc <;> rw [hc] at hz
          · rw [← hz]; exact hcomp.1
          · rw [← hz]; exact hcomp.2
        · rw [← he2] at hz
          rcases canonPair_snd_or q.1 q.2 with hc | hc <;> rw [hc] at hz
          · rw [← hz]; exact hcomp.1
          · rw [← hz]; exact hcomp.2
      exact hnd.1 hzin

theorem mem_canonList (l : List String) (hnd : l.Nodup) (z : String × String) :
    z ∈ canonList l ↔ strLt z.1 z.2 = true ∧ z.1 ∈ l ∧ z.2 ∈ l := by
  constructor
  · intro h
    rcases List.mem_map.1 h with ⟨p, hp, he⟩
    have hne := pairsInOrder_ne l hnd p hp
    have hcomp := mem_pairsInOrder l p hp
    have hle := strLe_canonPair p.1 p.2
    have hzne : z.1 ≠ z.2 := by
      rw [← he]
      rcases canonPair_cases p.1 p.2 with hc | hc <;> rw [hc]
      · exact hne
      · exact fun hh => hne hh.symm
    refine ⟨?_, ?_, ?_⟩
    · apply strLt_of_le_ne _ hzne
      rw [← he]
      exact hle
    · rw [← he]
      rcases canonPair_fst_or p.1 p.2 with hc | hc <;> rw [hc]
      · exact hcomp.1
      · exact hcomp.2
    · rw [← he]
      rcases canonPair_snd_or p.1 p.2 with hc | hc <;> rw [hc]
      · exact hcomp.1
      · exact hcomp.2
  · rintro ⟨hlt, h1, h2⟩
    have hne := strLt_ne hlt
    rcases pairs_cover l z.1 z.2 hne h1 h2 with hp | hp
    · apply List.mem_map.2
      refine ⟨(z.1, z.2), hp, ?_⟩
      rw [canonPair_eq_of_le (strLt_le hlt)]
    · apply List.mem_map.2
      refine ⟨(z.2, z.1), hp, ?_⟩
      rw [canonPair_comm, canonPair_eq_of_le (strLt_le hlt)]

theorem length_canonList (l : List String) :
    (canonList l).length = l.length.choose 2 := by
  unfold canonList
  rw [List.length_map, length_pairsInOrder]

theorem get_weight_nil (x y : String) : get_weight ([] : Graph) x y = 0 := rfl

/-- One basket update adds exactly 1 to each unordered pair of distinct
basket members (both directions), and nothing else, when the basket has no
duplicates. -/
theorem update_weight_nodup (g : Graph) (basket : List String) (hnd : basket.Nodup)
    (x y : String) :
    get_weight (update_from_basket g basket) x y
      = get_weight g x y + (if x ≠ y ∧ x ∈ basket ∧ y ∈ basket then 1 else 0) := by
  rw [get_weight_update_from_basket]
  by_cases hxy : x = y
  · have hz : (pairsInOrder basket).countP (pairHitB x y) = 0 := by
      rw [List.countP_eq_zero]
      intro p hp
      simp only [pairHitB, decide_eq_true_eq]
      rintro ⟨hne, ⟨h1, h2⟩ | ⟨h1, h2⟩⟩
      · exact hne (h1.symm.trans (hxy.trans h2))
      · exact hne (h2.symm.trans (hxy.symm.trans h1))
    rw [hz, if_neg (by tauto)]
  · rw [countP_pairsInOrder_nodup basket hnd x y hxy]
    by_cases hm : x ∈ basket ∧ y ∈ basket
    · rw [if_pos hm, if_pos ⟨hxy, hm⟩]
    · rw [if_neg hm, if_neg (by tauto)]

theorem mem_keysOfEdges_iff {g : Graph} (hwf : WFGraph g) (z : String × String) :
    z ∈ keysOfEdges (unique_edges g) ↔
      strLt z.1 z.2 = true ∧ 1 ≤ get_weight g z.1 z.2 := by
  constructor
  · intro h
    rcases List.mem_map.1 h with ⟨e, he, hk⟩
    rcases unique_edges_sound hwf e he with ⟨hlt, hweq, hpos⟩
    have h1 : e.1 = z.1 := congrArg Prod.fst hk
    have h2 : e.2.1 = z.2 := congrArg Prod.snd hk
    rw [← h1, ← h2]
    exact ⟨hlt, by omega⟩
  · rintro ⟨hlt, hpos⟩
    have := unique_edges_complete hwf z.1 z.2 hlt hpos
    apply List.mem_map.2
    exact ⟨(z.1, z.2, get_weight g z.1 z.2), this, rfl⟩

/-- A single duplicate-free basket folded into the empty graph yields
exactly `C(n, 2)` canonical edges, each of weight 1. -/
theorem unique_edges_singleBasket (basket : List String) (hnd : basket.Nodup) :
    (unique_edges (update_from_basket [] basket)).length = basket.length.choose 2 ∧
    ∀ e ∈ unique_edges (update_from_basket [] basket), e.2.2 = 1 := by
  have hwf : WFGraph (update_from_basket [] basket) :=
    wf_update_from_basket wf_empty basket
  have hw : ∀ x y, get_weight (update_from_basket [] basket) x y
      = if x ≠ y ∧ x ∈ basket ∧ y ∈ basket then 1 else 0 := by
    intro x y
    rw [update_weight_nodup [] basket hnd x y, get_weight_nil]
    omega
  constructor
  · have hmem : ∀ z : String × String,
        z ∈ keysOfEdges (unique_edges (update_from_basket [] basket)) ↔
          z ∈ canonList basket := by
      intro z
      rw [mem_keysOfEdges_iff hwf, mem_canonList basket hnd, hw]
      constructor
      · rintro ⟨hlt, hpos⟩
        by_cases hc : z.1 ≠ z.2 ∧ z.1 ∈ basket ∧ z.2 ∈ basket
        · exact ⟨hlt, hc.2⟩
        · rw [if_neg hc] at hpos; omega
      · rintro ⟨hlt, hm⟩
        refine ⟨hlt, ?_⟩
        rw [if_pos ⟨strLt_ne hlt, hm⟩]
    have hperm := (List.perm_ext_iff_of_nodup
      (unique_edges_keys_nodup (update_from_basket [] basket))
      (canonList_nodup basket hnd)).2 hmem
    have hlen := hperm.length_eq
    unfold keysOfEdges at hlen
    rw [List.length_map] at hlen
    rw [hlen, length_canonList]
  · intro e he
    rcases unique_edges_sound hwf e he with ⟨-, hweq, hpos⟩
    rw [hw e.1 e.2.1] at hweq
    by_cases hc : e.1 ≠ e.2.1 ∧ e.1 ∈ basket ∧ e.2.1 ∈ basket
    · rw [if_pos hc] at hweq; exact hweq
    · rw [if_neg hc] at hweq; omega

/-- Updating the same pair across `N` separate baskets accumulates weight
exactly `N`. -/
theorem replicate_pair_weight (N : Nat) (a b : String) (hab : a ≠ b) :
    get_weight (buildGraph (List.replicate N [a, b])) a b = N := by
  unfold buildGraph
  rw [get_weight_foldBaskets, get_weight_nil]
  have hpairs : pairsInOrder [a, b] = [(a, b)] := rfl
  have hone : (pairsInOrder [a, b]).countP (pairHitB a b) = 1 := by
    rw [hpairs, List.countP_cons]
    have : pairHitB a b (a, b) = true :=
      decide_eq_true ⟨hab, Or.inl ⟨rfl, rfl⟩⟩
    rw [List.countP_nil, if_pos this]
  rw [List.map_replicate, hone, List.sum_replicate, smul_eq_mul]
  omega

/-- Baskets of size 0 or 1 leave the graph unchanged. -/
theorem update_small (g : Graph) (basket : List String) (h : basket.length ≤ 1) :
    update_from_basket g basket = g := by
  cases basket with
  | nil => rfl
  | cons x t =>
    cases t with
    | nil => rfl
    | cons y r => simp at h

/-- A pair never co-observed in any basket has weight 0. -/
theorem buildGraph_not_coobserved (baskets : List (List String)) (a b : String)
    (h : ∀ bk ∈ baskets, ¬ (a ∈ bk ∧ b ∈ bk)) :
    get_weight (buildGraph baskets) a b = 0 := by
  unfold buildGraph
  rw [get_weight_foldBaskets, get_weight_nil]
  have : ∀ x ∈ baskets.map fun bk => (pairsInOrder bk).countP (pairHitB a b), x = 0 := by
    intro x hx
    rcases List.mem_map.1 hx with ⟨bk, hbk, he⟩
    rw [← he, List.countP_eq_zero]
    intro p hp
    rcases mem_pairsInOrder bk p hp with ⟨h1, h2⟩
    simp only [pairHitB, decide_eq_true_eq]
    rintro ⟨-, ⟨ha, hb⟩ | ⟨ha, hb⟩⟩
    · exact h bk hbk ⟨ha ▸ h1, hb ▸ h2⟩
    · exact h bk hbk ⟨ha ▸ h2, hb ▸ h1⟩
  rw [List.sum_eq_zero this]
  rfl

theorem survivingEntry_item (header row : List String) (k : BasketKey) (it : String)
    (h : survivingEntry header row = some (k, it)) : it ≠ "" ∧ pyStrip it = it := by
  unfold survivingEntry at h
  cases hm : fetchCol (rowRecord header row) "Member_number" with
  | error f => rw [hm] at h; cases h
  | ok m =>
    rw [hm] at h
    cases hdt : fetchCol (rowRecord header row) "Date" with
    | error f => rw [hdt] at h; cases h
    | ok dte =>
      rw [hdt] at h
      cases hit : fetchCol (rowRecord header row) "itemDescription" with
      | error f => rw [hit] at h; cases h
      | ok v =>
        rw [hit] at h
        cases v with
        | none => cases h
        | some itRaw =>
          have h2 : (if pyStrip itRaw ≠ "" then some ((m, dte), pyStrip itRaw)
              else (none : Option (BasketKey × String))) = some (k, it) := h
          by_cases he : pyStrip itRaw ≠ ""
          · rw [if_pos he] at h2
            cases h2
            exact ⟨he, pyStrip_idem itRaw⟩
          · rw [if_neg he] at h2
            cases h2

/-! ### Claim theorems -/

/-- C1: a single `update_from_basket` call on a duplicate-free basket adds
exactly 1 to the weight of every unordered pair of distinct basket members
(in both directions, since `get_weight` is queried at every ordered
coordinate) and changes no other weight; one duplicate-free basket of `n`
items on the empty graph yields exactly `C(n, 2)` unique canonical edges,
each of weight 1; the same pair over `N` separate baskets accumulates weight
exactly `N`; baskets of size 0 or 1 leave the graph unchanged. -/
theorem claim_C1 (g : Graph) (basket : List String) (hnd : basket.Nodup) :
    (∀ x y : String,
        get_weight (update_from_basket g basket) x y
          = get_weight g x y + (if x ≠ y ∧ x ∈ basket ∧ y ∈ basket then 1 else 0)) ∧
    ((unique_edges (update_from_basket [] basket)).length = basket.length.choose 2 ∧
      ∀ e ∈ unique_edges (update_from_basket [] basket), e.2.2 = 1) ∧
    (∀ (N : Nat) (a b : String), a ≠ b →
        get_weight (buildGraph (List.replicate N [a, b])) a b = N) ∧
    (basket.length ≤ 1 → update_from_basket g basket = g) := by
  refine ⟨?_, ?_, ?_, ?_⟩
  · intro x y
    exact update_weight_nodup g basket hnd x y
  · exact unique_edges_singleBasket basket hnd
  · intro N a b hab
    exact replicate_pair_weight N a b hab
  · intro h
    exact update_small g basket h

theorem claim_C1_witness :
    (["a", "b", "c"] : List String).Nodup ∧
    get_weight (update_from_basket [] ["a", "b", "c"]) "a" "b"
      = get_weight ([] : Graph) "a" "b"
        + (if "a" ≠ "b" ∧ "a" ∈ ["a", "b", "c"] ∧ "b" ∈ ["a", "b", "c"] then 1 else 0) ∧
    (unique_edges (update_from_basket [] ["a", "b", "c"])).length
      = (["a", "b", "c"] : List String).length.choose 2 := by
  refine ⟨by decide, ?_, ?_⟩
  · exact (claim_C1 [] ["a", "b", "c"] (by decide)).1 "a" "b"
  · exact (claim_C1 [] ["a", "b", "c"] (by decide)).2.1.1

/-- C2: every graph reachable from the empty graph by `update_from_basket`
calls has symmetric weights: `get_weight g a b = get_weight g b a`. -/
theorem claim_C2 (g : Graph) (h : Reachable g) (a b : String) :
    get_weight g a b = get_weight g b a :=
  (wf_reachable h).symm a b

theorem claim_C2_witness :
    get_weight (update_from_basket [] ["x", "y"]) "x" "y"
      = get_weight (update_from_basket [] ["x", "y"]) "y" "x" :=
  claim_C2 (update_from_basket [] ["x", "y"])
    (Reachable.step ["x", "y"] Reachable.empty) "x" "y"

/-- C7: `get_weight` is total (it is a function in this embedding); it
returns 0 when the first item is not a graph key, 0 when the pair was never
co-observed in any basket, and `get_weight g x x = 0` on every reachable
graph (no self-edge is ever created). -/
theorem claim_C7 (g : Graph) (h : Reachable g) (a b x : String) :
    (dlookup g a = none → get_weight g a b = 0) ∧
    get_weight g x x = 0 ∧
    (∀ baskets : List (List String), g = buildGraph baskets →
        (∀ bk ∈ baskets, ¬ (a ∈ bk ∧ b ∈ bk)) → get_weight g a b = 0) := by
  refine ⟨?_, (wf_reachable h).noSelf x, ?_⟩
  · intro hnone
    exact get_weight_none b hnone
  · intro baskets hg hnever
    rw [hg]
    exact buildGraph_not_coobserved baskets a b hnever

theorem claim_C7_witness :
    get_weight (buildGraph [["p", "q"]]) "z" "q" = 0 ∧
    get_weight (buildGraph [["p", "q"]]) "p" "p" = 0 ∧
    get_weight (buildGraph [["p", "q"], ["q", "r"]]) "p" "r" = 0 := by
  refine ⟨?_, ?_, ?_⟩
  · exact (claim_C7 (buildGraph [["p", "q"]]) (reachable_buildGraph _) "z" "q" "p").1
      (by decide)
  · exact (claim_C7 (buildGraph [["p", "q"]]) (reachable_buildGraph _) "z" "q" "p").2.1
  · exact (claim_C7 (buildGraph [["p", "q"], ["q", "r"]]) (reachable_buildGraph _)
      "p" "r" "p").2.2 [["p", "q"], ["q", "r"]] rfl (by decide)

/-- C10: when a basket contains repeated values, every index pair `i < j`
with distinct values is counted separately: the weight gained by `{x, y}` is
exactly the number of such index pairs hitting `{x, y}`, so `[a, a, b]`
adds 2 to `get_weight a b` in one call, and the increment-by-1 guarantee
needs pairwise-distinct entries. -/
theorem claim_C10 (g : Graph) (basket : List String) (x y : String) :
    (get_weight (update_from_basket g basket) x y
      = get_weight g x y + (pairsInOrder basket).countP (pairHitB x y)) ∧
    get_weight (update_from_basket [] ["a", "a", "b"]) "a" "b" = 2 :=
  ⟨get_weight_update_from_basket g basket x y, by decide⟩

/-- C5: on every reachable graph, `unique_edges` lists exactly one entry
`(a, b, weight)` with `a < b` per unordered pair of positive weight, with no
pair repeated in either orientation (all listed keys are canonical and
duplicate-free); `top_bundles k` is the first `k` entries of that edge list
sorted by weight descending with ties broken by `(a, b)` ascending; the
empty graph yields an empty sequence. -/
theorem claim_C5 (g : Graph) (h : Reachable g) (k : Nat) :
    (∀ e ∈ unique_edges g,
        strLt e.1 e.2.1 = true ∧ e.2.2 = get_weight g e.1 e.2.1 ∧ 1 ≤ e.2.2) ∧
    (keysOfEdges (unique_edges g)).Nodup ∧
    (∀ x y : String, strLt x y = true → 1 ≤ get_weight g x y →
        (x, y, get_weight g x y) ∈ unique_edges g) ∧
    (∃ l, List.Perm l (unique_edges g) ∧
        l.Pairwise (fun a b => bundleLE a b = true) ∧
        top_bundles g k = l.take k) ∧
    top_bundles ([] : Graph) k = [] := by
  have hwf := wf_reachable h
  refine ⟨unique_edges_sound hwf, unique_edges_keys_nodup g,
    unique_edges_complete hwf, ?_, rfl⟩
  refine ⟨sortBy bundleLE (unique_edges g), sortBy_perm bundleLE _,
    sortBy_sorted bundleLE bundleLE_trans bundleLE_total _, ?_⟩
  unfold top_bundles
  by_cases he : (unique_edges g).isEmpty = true
  · rw [if_pos he]
    rw [List.isEmpty_iff] at he
    rw [he]
    rw [show sortBy bundleLE ([] : List (String × String × Nat)) = [] from rfl,
      List.take_nil]
  · rw [if_neg he]

theorem claim_C5_witness :
    (∀ e ∈ unique_edges (buildGraph [["a", "b"], ["a", "b"]]),
        strLt e.1 e.2.1 = true
          ∧ e.2.2 = get_weight (buildGraph [["a", "b"], ["a", "b"]]) e.1 e.2.1
          ∧ 1 ≤ e.2.2) ∧
    (∃ l, List.Perm l (unique_edges (buildGraph [["a", "b"], ["a", "b"]])) ∧
        l.Pairwise (fun a b => bundleLE a b = true) ∧
        top_bundles (buildGraph [["a", "b"], ["a", "b"]]) 3 = l.take 3) := by
  have h := claim_C5 (buildGraph [["a", "b"], ["a", "b"]])
    (reachable_buildGraph [["a", "b"], ["a", "b"]]) 3
  exact ⟨h.1, h.2.2.2.1⟩

/-- C6: `top_with_item item k` is the first `k` entries of the neighbour
list of `item` sorted by weight descending with ties broken by name
ascending; when `k` is at least the neighbour count the whole neighbour set
is returned; an unknown item yields an empty sequence. -/
theorem claim_C6 (g : Graph) (item : String) (k : Nat) :
    (∃ l, List.Perm l (neighborsOf g item) ∧
        l.Pairwise (fun a b => neighborLE a b = true) ∧
        top_with_item g item k = l.take k) ∧
    ((neighborsOf g item).length ≤ k →
        List.Perm (top_with_item g item k) (neighborsOf g item)) ∧
    (dlookup g item = none → top_with_item g item k = []) := by
  have heq : top_with_item g item k = (sortBy neighborLE (neighborsOf g item)).take k := by
    unfold top_with_item
    by_cases he : (neighborsOf g item).isEmpty = true
    · rw [if_pos he]
      rw [List.isEmpty_iff] at he
      rw [he]
      rw [show sortBy neighborLE ([] : List (String × Nat)) = [] from rfl, List.take_nil]
    · rw [if_neg he]
  refine ⟨⟨sortBy neighborLE (neighborsOf g item), sortBy_perm neighborLE _,
    sortBy_sorted neighborLE neighborLE_trans neighborLE_total _, heq⟩, ?_, ?_⟩
  · intro hk
    rw [heq]
    have hlen : (sortBy neighborLE (neighborsOf g item)).length
        = (neighborsOf g item).length := (sortBy_perm neighborLE _).length_eq
    rw [List.take_of_length_le (by omega)]
    exact sortBy_perm neighborLE _
  · intro hnone
    rw [heq]
    have hni : neighborsOf g item = [] := by
      unfold neighborsOf
      rw [hnone]
      rfl
    rw [hni]
    rw [show sortBy neighborLE ([] : List (String × Nat)) = [] from rfl, List.take_nil]

theorem claim_C6_witness :
    List.Perm (top_with_item (buildGraph [["a", "b", "c"]]) "a" 5)
      (neighborsOf (buildGraph [["a", "b", "c"]]) "a") ∧
    top_with_item (buildGraph [["a", "b", "c"]]) "zzz" 5 = [] :=
  ⟨(claim_C6 (buildGraph [["a", "b", "c"]]) "a" 5).2.1 (by decide),
    (claim_C6 (buildGraph [["a", "b", "c"]]) "zzz" 5).2.2 (by decide)⟩

/-- C3: `bfs_related` explores only edges of weight ≥ `min_weight` and at
most `max_depth` hops: every result bucket is duplicate-free, every
discovered item sits in exactly one depth bucket with `1 ≤ d ≤ max_depth`,
each was discovered over a qualifying edge from the previous level (or from
`start` itself at depth 1, pinning depth to first discovery by hop count),
`start` itself never appears in a bucket, every strong-enough direct
neighbour of `start` lands at depth 1, and an unknown start yields
`{start: {}}`. -/
theorem claim_C3 (g : Graph) (start : String) (maxd minw : Nat) :
    (dlookup g start = none → bfs_related g start maxd minw = (start, [])) ∧
    (bfs_related g start maxd minw).1 = start ∧
    (∀ d, ((dlookup (bfs_related g start maxd minw).2 d).getD []).Nodup) ∧
    (∀ d d' x, inBucket (bfs_related g start maxd minw).2 d x →
        inBucket (bfs_related g start maxd minw).2 d' x → d = d') ∧
    (∀ d x, inBucket (bfs_related g start maxd minw).2 d x → x ≠ start) ∧
    (∀ d x, inBucket (bfs_related g start maxd minw).2 d x → 1 ≤ d ∧ d ≤ maxd) ∧
    (∀ d x, inBucket (bfs_related g start maxd minw).2 d x →
        ∃ c w, (x, w) ∈ neighborsOf g c ∧ minw ≤ w ∧
          ((d = 1 ∧ c = start) ∨
            (2 ≤ d ∧ inBucket (bfs_related g start maxd minw).2 (d - 1) c))) ∧
    (∀ inner, dlookup g start = some inner → 1 ≤ maxd →
        ∀ bw ∈ inner, minw ≤ bw.2 → bw.1 ≠ start →
          inBucket (bfs_related g start maxd minw).2 1 bw.1) := by
  have hok := bfs_related_resultOK g maxd minw start
  have hfst : (bfs_related g start maxd minw).1 = start := by
    unfold bfs_related
    cases dlookup g start with
    | none => rfl
    | some inner => rfl
  refine ⟨bfs_related_unknown g maxd minw start, hfst,
    hok.1, hok.2.1, hok.2.2.1, hok.2.2.2.1, hok.2.2.2.2.1, ?_⟩
  intro inner hstart hmax bw hbw hw hne
  exact bfs_related_first_level g maxd minw start inner hstart hmax bw hbw hw hne

theorem claim_C3_witness :
    bfs_related (buildGraph [["a", "b"], ["b", "c"]]) "zz" 2 1 = ("zz", []) ∧
    inBucket (bfs_related (buildGraph [["a", "b"], ["b", "c"]]) "a" 2 1).2 1 "b" := by
  constructor
  · exact (claim_C3 (buildGraph [["a", "b"], ["b", "c"]]) "zz" 2 1).1 (by decide)
  · exact (claim_C3 (buildGraph [["a", "b"], ["b", "c"]]) "a" 2 1).2.2.2.2.2.2.2
      [("b", 1)] (by decide) (by decide) ("b", 1) (by decide) (by decide) (by decide)

/-- C9: the BFS loop terminates for every graph, depth bound and weight
bound: the fuel `bfs_related` supplies (one more than the total adjacency
size) always drains the queue, and more generally any fuel at least
`queue length + number of unvisited adjacency entries` suffices, because
each enqueue strictly shrinks the unvisited count and each step pops the
queue. -/
theorem claim_C9 (g : Graph) (start : String) (maxd minw : Nat) :
    (bfsLoop g maxd minw ((graphAdj g).length + 1) [(start, 0)] [start] []).2 = true ∧
    (∀ (fuel : Nat) (queue : List (String × Nat)) (visited : List String)
        (result : Dict Nat (List String)),
      queue.length + remainingAdj g visited ≤ fuel →
      (bfsLoop g maxd minw fuel queue visited result).2 = true) :=
  ⟨bfs_fuel_sufficient g maxd minw start,
    fun fuel queue visited result hle => bfsLoop_fuel g maxd minw fuel queue visited result hle⟩

theorem claim_C9_witness :
    (bfsLoop (buildGraph [["a", "b"], ["b", "c"]]) 2 1
        ((graphAdj (buildGraph [["a", "b"], ["b", "c"]])).length + 1)
        [("a", 0)] ["a"] []).2 = true ∧
    (bfsLoop (buildGraph [["a", "b"], ["b", "c"]]) 2 1 9 [("a", 0)] ["a"] []).2 = true := by
  constructor
  · exact (claim_C9 (buildGraph [["a", "b"], ["b", "c"]]) "a" 2 1).1
  · exact (claim_C9 (buildGraph [["a", "b"], ["b", "c"]]) "a" 2 1).2 9
      [("a", 0)] ["a"] [] (by decide)

/-- C4 (as stated in the claim, refuted): with the column `itemDescription`
absent from the header but no data rows, `load_from_csv` succeeds with an
empty basket list instead of failing with a schema error — the loader never
inspects the header itself and only hits the `KeyError` when a row is
accessed. -/
theorem claim_C4_counterexample :
    load_from_csv "groceries.csv"
        (fun _ => some ⟨["Member_number", "Date"], []⟩)
      = Except.ok [] := rfl

/-- C4 (amended): `load_from_csv` fails with a `SourceNotFound`-kind error
when the input cannot be opened, and fails with a `SchemaError`-kind error
naming the first missing required field (in access order `Member_number`,
`Date`, `itemDescription`) whenever a required field is absent from the
header row **and at least one data row exists**; with a missing field but
zero data rows the load succeeds with an empty result.  In the failure
cases the load is fatal: the error propagates with no partial result. -/
theorem claim_C4 (path : String) (fs : String → Option CsvFile)
    (header row : List String) (rest : List (List String)) :
    (fs path = none →
        load_from_csv path fs = Except.error (LoadError.sourceNotFound path)) ∧
    (fs path = some ⟨header, row :: rest⟩ →
      ("Member_number" ∉ header →
          load_from_csv path fs = Except.error (LoadError.schemaError "Member_number")) ∧
      ("Member_number" ∈ header → "Date" ∉ header →
          load_from_csv path fs = Except.error (LoadError.schemaError "Date")) ∧
      ("Member_number" ∈ header → "Date" ∈ header → "itemDescription" ∉ header →
          load_from_csv path fs
            = Except.error (LoadError.schemaError "itemDescription"))) := by
  constructor
  · intro hnone
    unfold load_from_csv
    rw [hnone]
  · intro hfs
    have hload : ∀ e : LoadError,
        processRows header (row :: rest) [] = Except.error e →
        load_from_csv path fs = Except.error e := by
      intro e hproc
      unfold load_from_csv
      rw [hfs]
      show (match processRows header (row :: rest) [] with
        | Except.error e => Except.error e
        | Except.ok d => Except.ok (d.map fun e => sortBy strLe e.2)) = Except.error e
      rw [hproc]
    refine ⟨?_, ?_, ?_⟩
    · intro hm
      apply hload
      show (match fetchCol (rowRecord header row) "Member_number" with
        | Except.error f => Except.error (LoadError.schemaError f)
        | Except.ok m => _) = _
      rw [fetchCol_missing header row _ hm]
    · intro hm hd
      obtain ⟨v, hv⟩ := fetchCol_present header row "Member_number" hm
      apply hload
      show (match fetchCol (rowRecord header row) "Member_number" with
        | Except.error f => Except.error (LoadError.schemaError f)
        | Except.ok m => _) = _
      rw [hv, fetchCol_missing header row _ hd]
    · intro hm hd hi
      obtain ⟨v, hv⟩ := fetchCol_present header row "Member_number" hm
      obtain ⟨v2, hv2⟩ := fetchCol_present header row "Date" hd
      apply hload
      show (match fetchCol (rowRecord header row) "Member_number" with
        | Except.error f => Except.error (LoadError.schemaError f)
        | Except.ok m => _) = _
      rw [hv, hv2, fetchCol_missing header row _ hi]

theorem claim_C4_witness :
    load_from_csv "missing.csv" (fun _ => none)
      = Except.error (LoadError.sourceNotFound "missing.csv") ∧
    load_from_csv "t.csv" (fun _ => some ⟨["Date"], [["d1"]]⟩)
      = Except.error (LoadError.schemaError "Member_number") ∧
    load_from_csv "u.csv"
        (fun _ => some ⟨["Member_number", "Date"], [["1", "d1"]]⟩)
      = Except.error (LoadError.schemaError "itemDescription") := by
  refine ⟨?_, ?_, ?_⟩
  · exact (claim_C4 "missing.csv" (fun _ => none) [] [] []).1 rfl
  · exact ((claim_C4 "t.csv" (fun _ => some ⟨["Date"], [["d1"]]⟩)
      ["Date"] ["d1"] []).2 rfl).1 (by decide)
  · exact (((claim_C4 "u.csv" (fun _ => some ⟨["Member_number", "Date"], [["1", "d1"]]⟩)
      ["Member_number", "Date"] ["1", "d1"] []).2 rfl).2.2 (by decide) (by decide)
      (by decide))

/-- C8: a successful `load_from_csv` yields exactly one basket per unique
`(customer, date)` key that occurs with a surviving item; every basket is
sorted lexicographically and duplicate-free, and its items are exactly the
stripped nonempty item values of that key's rows (hence trimmed: stripping
is idempotent). -/
theorem claim_C8 (path : String) (fs : String → Option CsvFile) (header : List String)
    (rows : List (List String)) (bs : List (List String))
    (hfs : fs path = some ⟨header, rows⟩)
    (hok : load_from_csv path fs = Except.ok bs) :
    bs.length = ((rows.filterMap fun row =>
        (survivingEntry header row).map Prod.fst).dedup).length ∧
    (∀ b ∈ bs, b.Pairwise (fun x y : String => strLe x y = true) ∧ b.Nodup) ∧
    (∀ b ∈ bs, ∀ it ∈ b, it ≠ "" ∧ pyStrip it = it) ∧
    (∀ b ∈ bs, ∃ k : BasketKey, ∀ it : String,
        it ∈ b ↔ ∃ row ∈ rows, survivingEntry header row = some (k, it)) ∧
    (∀ k : BasketKey, (∃ row ∈ rows, ∃ it, survivingEntry header row = some (k, it)) →
        ∃ b ∈ bs, ∀ it : String,
          it ∈ b ↔ ∃ row ∈ rows, survivingEntry header row = some (k, it)) := by
  unfold load_from_csv at hok
  rw [hfs] at hok
  have hok2 : (match processRows header rows [] with
      | Except.error e => Except.error e
      | Except.ok d => Except.ok (d.map fun e => sortBy strLe e.2))
      = Except.ok bs := hok
  cases hproc : processRows header rows [] with
  | error e => rw [hproc] at hok2; cases hok2
  | ok d =>
    rw [hproc] at hok2
    have hbs : bs = d.map fun e => sortBy strLe e.2 := by
      cases hok2
      rfl
    have hd := processRows_eq_accumulate header rows [] d hproc
    have hkeysnd : (dkeys d).Nodup := by
      rw [hd]
      exact accumulate_keys_nodup header rows [] (by simp [dkeys])
    have hkeys : ∀ k : BasketKey, k ∈ dkeys d ↔
        ∃ row ∈ rows, ∃ it, survivingEntry header row = some (k, it) := by
      intro k
      rw [hd, accumulate_keys_mem]
      simp [dkeys]
    have hitems : ∀ (k : BasketKey) (x : String), x ∈ (dlookup d k).getD [] ↔
        ∃ row ∈ rows, survivingEntry header row = some (k, x) := by
      intro k x
      rw [hd, accumulate_items_mem]
      simp [dlookup]
    have hinnd : ∀ k : BasketKey, ((dlookup d k).getD []).Nodup := by
      intro k
      rw [hd]
      exact accumulate_items_nodup header rows [] (fun k => by simp [dlookup]) k
    have hval : ∀ e ∈ d, e.2 = (dlookup d e.1).getD [] := by
      intro e he
      rw [mem_dlookup d e.1 e.2 hkeysnd he]
      rfl
    have hmem_b : ∀ b ∈ bs, ∃ e ∈ d, sortBy strLe e.2 = b := by
      intro b hb
      rw [hbs] at hb
      exact List.mem_map.1 hb
    refine ⟨?_, ?_, ?_, ?_, ?_⟩
    · have hL : ∀ k : BasketKey,
          k ∈ (rows.filterMap fun row => (survivingEntry header row).map Prod.fst).dedup
            ↔ ∃ row ∈ rows, ∃ it, survivingEntry header row = some (k, it) := by
        intro k
        rw [List.mem_dedup, List.mem_filterMap]
        constructor
        · rintro ⟨row, hrow, hmap⟩
          rcases Option.map_eq_some'.1 hmap with ⟨kit, hkit, hfst⟩
          refine ⟨row, hrow, kit.2, ?_⟩
          rw [hkit]
          rw [show kit = (kit.1, kit.2) from rfl, hfst]
        · rintro ⟨row, hrow, it, hsurv⟩
          exact ⟨row, hrow, by rw [hsurv]; rfl⟩
      have hperm := (List.perm_ext_iff_of_nodup hkeysnd (List.nodup_dedup _)).2
        (fun k => (hkeys k).trans (hL k).symm)
      have hlen1 : bs.length = d.length := by
        rw [hbs, List.length_map]
      have hlen2 : (dkeys d).length = d.length := List.length_map _ _
      rw [hlen1, ← hlen2, hperm.length_eq]
    · intro b hb
      rcases hmem_b b hb with ⟨e, he, hsort⟩
      constructor
      · rw [← hsort]
        exact sortBy_sorted strLe (fun a b c h1 h2 => strLe_trans h1 h2) strLe_total e.2
      · rw [← hsort]
        apply (sortBy_perm strLe e.2).symm.nodup
        rw [hval e he]
        exact hinnd e.1
    · intro b hb it hit
      rcases hmem_b b hb with ⟨e, he, hsort⟩
      rw [← hsort] at hit
      have hit2 : it ∈ e.2 := (sortBy_perm strLe e.2).mem_iff.1 hit
      rw [hval e he] at hit2
      rcases (hitems e.1 it).1 hit2 with ⟨row, hrow, hsurv⟩
      exact survivingEntry_item header row e.1 it hsurv
    · intro b hb
      rcases hmem_b b hb with ⟨e, he, hsort⟩
      refine ⟨e.1, fun it => ?_⟩
      rw [← hsort]
      rw [(sortBy_perm strLe e.2).mem_iff, hval e he]
      exact hitems e.1 it
    · intro k hk
      have hkmem : k ∈ dkeys d := (hkeys k).2 hk
      rcases List.mem_map.1 hkmem with ⟨e, he, hke⟩
      refine ⟨sortBy strLe e.2, ?_, fun it => ?_⟩
      · rw [hbs]
        exact List.mem_map_of_mem _ he
      · rw [(sortBy_perm strLe e.2).mem_iff, hval e he, hke]
        exact hitems k it

theorem claim_C8_witness :
    load_from_csv "t.csv"
        (fun _ => some ⟨["Member_number", "Date", "itemDescription"],
          [["1", "d", " milk "], ["1", "d", "milk"], ["2", "d", "   "]]⟩)
      = Except.ok [["milk"]] ∧
    ([["milk"]] : List (List String)).length
      = (([["1", "d", " milk "], ["1", "d", "milk"], ["2", "d", "   "]].filterMap
          fun row => (survivingEntry ["Member_number", "Date", "itemDescription"]
            row).map Prod.fst).dedup).length ∧
    (∀ b ∈ ([["milk"]] : List (List String)), ∀ it ∈ b, it ≠ "" ∧ pyStrip it = it) := by
  have hload : load_from_csv "t.csv"
      (fun _ => some ⟨["Member_number", "Date", "itemDescription"],
        [["1", "d", " milk "], ["1", "d", "milk"], ["2", "d", "   "]]⟩)
      = Except.ok [["milk"]] := by rfl
  have h := claim_C8 "t.csv"
    (fun _ => some ⟨["Member_number", "Date", "itemDescription"],
      [["1", "d", " milk "], ["1", "d", "milk"], ["2", "d", "   "]]⟩)
    ["Member_number", "Date", "itemDescription"]
    [["1", "d", " milk "], ["1", "d", "milk"], ["2", "d", "   "]]
    [["milk"]] rfl hload
  exact ⟨hload, h.1, h.2.2.1⟩

end MarketBasket
